import Mathlib

/-!
Verification of the NanoleafSegments Home Assistant integration.

The definitions below are shallow embeddings of the Python source:
 - `custom_components/nanoleaf_segments/__init__.py` (NanoleafAPI),
 - `custom_components/nanoleaf_segments/light.py` (per-segment entities),
 - `custom_components/nanoleaf_segments/group.py` (group entities).

Machine integers are modelled as `Nat`/`Int`; Python float arithmetic is
modelled exactly by `flDouble`, round-to-nearest-even at 53 significant
bits over `ℚ` (valid on the normal range, which covers every value the
code produces from 0–255 channel data).
-/

namespace NanoleafSegments

/-! ### An exact model of IEEE-754 double rounding over ℚ -/

/-- Floor of log base 2, with explicit fuel so the kernel can reduce it. -/
def log2fuel : Nat → Nat → Nat
  | 0, _ => 0
  | f + 1, n => if 2 ≤ n then log2fuel f (n / 2) + 1 else 0

/-- Floor of log base 2 of a natural number (correct for `1 ≤ n < 2^200`). -/
def natLog2 (n : Nat) : Nat := log2fuel 200 n

/-- Floor of log base 2 of a positive rational (correct for `2^(-60) ≤ q < 2^130`). -/
def intLog2 (q : ℚ) : ℤ := (natLog2 (Int.toNat ⌊q * 2 ^ 60⌋) : ℤ) - 60

/-- Round to the nearest integer, ties to even (Python `round`). -/
def roundHalfEven {F : Type} [LinearOrderedField F] [FloorRing F] (m : F) : ℤ :=
  if m - ⌊m⌋ < 1 / 2 then ⌊m⌋
  else if 1 / 2 < m - ⌊m⌋ then ⌊m⌋ + 1
  else if ⌊m⌋ % 2 = 0 then ⌊m⌋ else ⌊m⌋ + 1

/-- Round a rational to the nearest IEEE-754 binary64 value (53 significant
bits, round-to-nearest-even), assuming an unbounded exponent range.  This is
the exact value of the Python float nearest to `q` whenever `|q|` lies in the
normal binary64 range (in this development only magnitudes in
`[2^(-60), 2^130]` and `0` arise). -/
def flPos (a : ℚ) : ℚ :=
  (roundHalfEven (a * (2 : ℚ) ^ (52 - intLog2 a)) : ℚ) * (2 : ℚ) ^ (intLog2 a - 52)

def flDouble (q : ℚ) : ℚ :=
  if q = 0 then 0
  else if q < 0 then -flPos (-q) else flPos q

lemma log2fuel_spec : ∀ f n : ℕ, 1 ≤ n → n < 2 ^ f →
    2 ^ log2fuel f n ≤ n ∧ n < 2 ^ (log2fuel f n + 1) := by
  intro f
  induction f with
  | zero => intro n h1 h2; omega
  | succ f ih =>
    intro n h1 h2
    by_cases h : 2 ≤ n
    · have hn2 : 1 ≤ n / 2 := (Nat.one_le_div_iff (by norm_num)).2 h
      have hlt : n / 2 < 2 ^ f := by
        have h2' : n < 2 ^ f * 2 := by
          rw [← pow_succ]; exact h2
        omega
      obtain ⟨lo, hi⟩ := ih (n / 2) hn2 hlt
      have hrw : log2fuel (f + 1) n = log2fuel f (n / 2) + 1 := by
        simp [log2fuel, h]
      rw [hrw]
      set k := log2fuel f (n / 2) with hk
      have e1 : 2 ^ (k + 1) = 2 * 2 ^ k := by ring
      have e2 : 2 ^ (k + 1 + 1) = 4 * 2 ^ k := by ring
      have e3 : 2 ^ (k + 1) = 2 * 2 ^ k := e1
      omega
    · have hrw : log2fuel (f + 1) n = 0 := by simp [log2fuel, h]
      rw [hrw]; omega

lemma natLog2_spec (n : ℕ) (h1 : 1 ≤ n) (h2 : n < 2 ^ 200) :
    2 ^ natLog2 n ≤ n ∧ n < 2 ^ (natLog2 n + 1) :=
  log2fuel_spec 200 n h1 h2

lemma intLog2_spec (q : ℚ) (hlo : (2 : ℚ) ^ (-60 : ℤ) ≤ q) (hhi : q < (2 : ℚ) ^ (130 : ℤ)) :
    (2 : ℚ) ^ intLog2 q ≤ q ∧ q < (2 : ℚ) ^ (intLog2 q + 1) := by
  have hq0 : 0 < q := lt_of_lt_of_le (by positivity) hlo
  have hx1 : (1 : ℚ) ≤ q * 2 ^ 60 := by
    have := mul_le_mul_of_nonneg_right hlo (by positivity : (0 : ℚ) ≤ 2 ^ 60)
    calc (1 : ℚ) = (2 : ℚ) ^ (-60 : ℤ) * 2 ^ 60 := by
          rw [show ((2 : ℚ) ^ 60 : ℚ) = (2 : ℚ) ^ (60 : ℤ) by norm_cast,
            ← zpow_add₀ (by norm_num : (2 : ℚ) ≠ 0)]
          norm_num
      _ ≤ q * 2 ^ 60 := this
  have hfl1 : (1 : ℤ) ≤ ⌊q * 2 ^ 60⌋ := by
    exact_mod_cast Int.le_floor.2 (by exact_mod_cast hx1)
  set n : ℕ := (⌊q * 2 ^ 60⌋).toNat with hn
  have hfl_eq : (⌊q * 2 ^ 60⌋ : ℤ) = (n : ℤ) := by omega
  have hn1 : 1 ≤ n := by omega
  have hnx : (n : ℚ) ≤ q * 2 ^ 60 := by
    have := Int.floor_le (q * 2 ^ 60)
    rw [hfl_eq] at this; exact_mod_cast this
  have hxn : q * 2 ^ 60 < (n : ℚ) + 1 := by
    have := Int.lt_floor_add_one (q * 2 ^ 60)
    rw [hfl_eq] at this; exact_mod_cast this
  have hnlt : n < 2 ^ 200 := by
    have hxlt : q * 2 ^ 60 < (2 : ℚ) ^ (190 : ℤ) := by
      have := mul_lt_mul_of_pos_right hhi (by positivity : (0 : ℚ) < 2 ^ 60)
      calc q * 2 ^ 60 < (2 : ℚ) ^ (130 : ℤ) * 2 ^ 60 := this
        _ = (2 : ℚ) ^ (190 : ℤ) := by
            rw [show ((2 : ℚ) ^ 60 : ℚ) = (2 : ℚ) ^ (60 : ℤ) by norm_cast,
              ← zpow_add₀ (by norm_num : (2 : ℚ) ≠ 0)]
            norm_num
    have : (n : ℚ) < (2 : ℚ) ^ (190 : ℤ) := lt_of_le_of_lt hnx hxlt
    have h190 : ((2 : ℚ) ^ (190 : ℤ) : ℚ) = ((2 ^ 190 : ℕ) : ℚ) := by norm_cast
    rw [h190] at this
    have hn190 : n < 2 ^ 190 := by exact_mod_cast this
    calc n < 2 ^ 190 := hn190
      _ ≤ 2 ^ 200 := Nat.pow_le_pow_right (by norm_num) (by norm_num)
  obtain ⟨lo, hi⟩ := natLog2_spec n hn1 hnlt
  have hL : intLog2 q = (natLog2 n : ℤ) - 60 := by
    simp only [intLog2, hn]
  set m := natLog2 n with hm
  have hpow60 : ((2 : ℚ) ^ 60 : ℚ) = (2 : ℚ) ^ (60 : ℤ) := by norm_cast
  have hne : (2 : ℚ) ≠ 0 := by norm_num
  constructor
  · rw [hL]
    rw [zpow_sub₀ hne, div_le_iff₀ (by positivity : (0 : ℚ) < (2 : ℚ) ^ (60 : ℤ))]
    have hcast : ((2 : ℚ) ^ (m : ℤ) : ℚ) = ((2 ^ m : ℕ) : ℚ) := by norm_cast
    rw [hcast]
    calc ((2 ^ m : ℕ) : ℚ) ≤ (n : ℚ) := by exact_mod_cast lo
      _ ≤ q * 2 ^ 60 := hnx
      _ = q * (2 : ℚ) ^ (60 : ℤ) := by rw [hpow60]
  · rw [hL]
    have : (m : ℤ) - 60 + 1 = ((m + 1 : ℕ) : ℤ) - 60 := by push_cast; ring
    rw [this, zpow_sub₀ hne, lt_div_iff₀ (by positivity : (0 : ℚ) < (2 : ℚ) ^ (60 : ℤ))]
    have hcast : ((2 : ℚ) ^ ((m + 1 : ℕ) : ℤ) : ℚ) = ((2 ^ (m + 1) : ℕ) : ℚ) := by norm_cast
    rw [hcast]
    calc q * (2 : ℚ) ^ (60 : ℤ) = q * 2 ^ 60 := by rw [hpow60]
      _ < (n : ℚ) + 1 := hxn
      _ ≤ ((2 ^ (m + 1) : ℕ) : ℚ) := by exact_mod_cast hi

lemma roundHalfEven_ge_floor {F : Type} [LinearOrderedField F] [FloorRing F] (m : F) :
    ⌊m⌋ ≤ roundHalfEven m := by
  unfold roundHalfEven
  split_ifs <;> omega

lemma roundHalfEven_le_floor_add_one {F : Type} [LinearOrderedField F] [FloorRing F] (m : F) :
    roundHalfEven m ≤ ⌊m⌋ + 1 := by
  unfold roundHalfEven
  split_ifs <;> omega

lemma roundHalfEven_eq_floor_add_one {F : Type} [LinearOrderedField F] [FloorRing F] (m : F)
    (h : 1 / 2 < m - ⌊m⌋) : roundHalfEven m = ⌊m⌋ + 1 := by
  unfold roundHalfEven
  rw [if_neg (by linarith), if_pos h]

lemma roundHalfEven_intCast (k : ℤ) : roundHalfEven (k : ℚ) = k := by
  unfold roundHalfEven
  simp only [Int.floor_intCast, sub_self]
  norm_num

lemma roundHalfEven_le_add_half (m : ℚ) : (roundHalfEven m : ℚ) ≤ m + 1 / 2 := by
  unfold roundHalfEven
  have hf : (⌊m⌋ : ℚ) ≤ m := Int.floor_le m
  split_ifs with h1 h2 h3
  · linarith
  · push_cast
    linarith [not_lt.1 (by exact fun h => h1 (by linarith) : ¬ m - ⌊m⌋ < 1 / 2)]
  · linarith
  · push_cast
    have := not_lt.1 h2
    linarith

lemma roundHalfEven_ge_sub_half (m : ℚ) : m - 1 / 2 ≤ (roundHalfEven m : ℚ) := by
  unfold roundHalfEven
  have hf : m < ⌊m⌋ + 1 := Int.lt_floor_add_one m
  split_ifs with h1 h2 h3
  · linarith
  · push_cast; linarith
  · have := not_lt.1 h1
    linarith
  · push_cast
    have := not_lt.1 h1
    linarith

lemma roundHalfEven_mono {m m' : ℚ} (h : m ≤ m') : roundHalfEven m ≤ roundHalfEven m' := by
  have hff : ⌊m⌋ ≤ ⌊m'⌋ := Int.floor_le_floor h
  rcases lt_or_eq_of_le hff with hlt | heq
  · calc roundHalfEven m ≤ ⌊m⌋ + 1 := roundHalfEven_le_floor_add_one m
      _ ≤ ⌊m'⌋ := by omega
      _ ≤ roundHalfEven m' := roundHalfEven_ge_floor m'
  · unfold roundHalfEven
    rw [← heq]
    have hr : m - ⌊m⌋ ≤ m' - ⌊m⌋ := by linarith
    split_ifs <;> first | omega | (exfalso; linarith)

/-- The range of magnitudes on which `flDouble` correctly models binary64
rounding (all values arising from 0–255 channel data lie well inside). -/
def FlRange (q : ℚ) : Prop := (2 : ℚ) ^ (-60 : ℤ) ≤ q ∧ q < (2 : ℚ) ^ (130 : ℤ)

lemma two_q_ne : (2 : ℚ) ≠ 0 := by norm_num

lemma zpow_mul_zpow_cancel (e : ℤ) (q : ℚ) :
    q * (2 : ℚ) ^ (52 - e) * (2 : ℚ) ^ (e - 52) = q := by
  rw [mul_assoc, ← zpow_add₀ two_q_ne]
  norm_num

lemma half_mul_zpow (e : ℤ) :
    (1 / 2 : ℚ) * (2 : ℚ) ^ (e - 52) = (2 : ℚ) ^ (e - 53) := by
  rw [show (1 / 2 : ℚ) = (2 : ℚ) ^ (-1 : ℤ) by norm_num, ← zpow_add₀ two_q_ne]
  congr 1
  ring

lemma flPos_le (q : ℚ) (h : FlRange q) :
    flPos q ≤ q + (2 : ℚ) ^ (intLog2 q - 53) := by
  obtain ⟨he1, he2⟩ := intLog2_spec q h.1 h.2
  set e := intLog2 q with he
  have hp : (0 : ℚ) < (2 : ℚ) ^ (e - 52) := by positivity
  have h1 : (roundHalfEven (q * (2 : ℚ) ^ (52 - e)) : ℚ) ≤ q * (2 : ℚ) ^ (52 - e) + 1 / 2 :=
    roundHalfEven_le_add_half _
  have h2 := mul_le_mul_of_nonneg_right h1 hp.le
  rw [add_mul, zpow_mul_zpow_cancel, half_mul_zpow] at h2
  exact h2

lemma flPos_ge (q : ℚ) (h : FlRange q) :
    q - (2 : ℚ) ^ (intLog2 q - 53) ≤ flPos q := by
  obtain ⟨he1, he2⟩ := intLog2_spec q h.1 h.2
  set e := intLog2 q with he
  have hp : (0 : ℚ) < (2 : ℚ) ^ (e - 52) := by positivity
  have h1 : q * (2 : ℚ) ^ (52 - e) - 1 / 2 ≤ (roundHalfEven (q * (2 : ℚ) ^ (52 - e)) : ℚ) :=
    roundHalfEven_ge_sub_half _
  have h2 := mul_le_mul_of_nonneg_right h1 hp.le
  rw [sub_mul, zpow_mul_zpow_cancel, half_mul_zpow] at h2
  exact h2

lemma err_le_mul (q : ℚ) (h : FlRange q) :
    (2 : ℚ) ^ (intLog2 q - 53) ≤ q * (2 : ℚ) ^ (-53 : ℤ) := by
  obtain ⟨he1, _⟩ := intLog2_spec q h.1 h.2
  have : (2 : ℚ) ^ (intLog2 q - 53) = (2 : ℚ) ^ (intLog2 q) * (2 : ℚ) ^ (-53 : ℤ) := by
    rw [← zpow_add₀ two_q_ne]; congr 1
  rw [this]
  exact mul_le_mul_of_nonneg_right he1 (by positivity)

lemma flPos_le_err (q : ℚ) (h : FlRange q) :
    flPos q ≤ q + q * (2 : ℚ) ^ (-53 : ℤ) :=
  le_trans (flPos_le q h) (by linarith [err_le_mul q h])

lemma flPos_ge_err (q : ℚ) (h : FlRange q) :
    q - q * (2 : ℚ) ^ (-53 : ℤ) ≤ flPos q :=
  le_trans (by linarith [err_le_mul q h]) (flPos_ge q h)

lemma flPos_ge_zpow (q : ℚ) (h : FlRange q) :
    (2 : ℚ) ^ (intLog2 q) ≤ flPos q := by
  obtain ⟨he1, he2⟩ := intLog2_spec q h.1 h.2
  set e := intLog2 q with he
  have hm52 : ((2 : ℚ) ^ (52 : ℤ) : ℚ) ≤ q * (2 : ℚ) ^ (52 - e) := by
    have := mul_le_mul_of_nonneg_right he1 (by positivity : (0 : ℚ) ≤ (2 : ℚ) ^ (52 - e))
    calc ((2 : ℚ) ^ (52 : ℤ) : ℚ) = (2 : ℚ) ^ e * (2 : ℚ) ^ (52 - e) := by
          rw [← zpow_add₀ two_q_ne]; congr 1; ring
      _ ≤ q * (2 : ℚ) ^ (52 - e) := this
  have hfl : (((2 : ℚ) ^ (52 : ℤ) : ℚ)) ≤ (roundHalfEven (q * (2 : ℚ) ^ (52 - e)) : ℚ) := by
    have h52 : ((2 ^ 52 : ℤ) : ℚ) ≤ q * (2 : ℚ) ^ (52 - e) := by
      rw [show ((2 ^ 52 : ℤ) : ℚ) = (2 : ℚ) ^ (52 : ℤ) by norm_cast]
      exact hm52
    have hfloor : (2 ^ 52 : ℤ) ≤ ⌊q * (2 : ℚ) ^ (52 - e)⌋ := Int.le_floor.2 h52
    have := roundHalfEven_ge_floor (q * (2 : ℚ) ^ (52 - e))
    have hint : (2 ^ 52 : ℤ) ≤ roundHalfEven (q * (2 : ℚ) ^ (52 - e)) := le_trans hfloor this
    calc ((2 : ℚ) ^ (52 : ℤ) : ℚ) = ((2 ^ 52 : ℤ) : ℚ) := by norm_cast
      _ ≤ _ := by exact_mod_cast hint
  calc (2 : ℚ) ^ e = (2 : ℚ) ^ (52 : ℤ) * (2 : ℚ) ^ (e - 52) := by
        rw [← zpow_add₀ two_q_ne]; congr 1; ring
    _ ≤ (roundHalfEven (q * (2 : ℚ) ^ (52 - e)) : ℚ) * (2 : ℚ) ^ (e - 52) :=
        mul_le_mul_of_nonneg_right hfl (by positivity)

lemma flPos_le_zpow (q : ℚ) (h : FlRange q) :
    flPos q ≤ (2 : ℚ) ^ (intLog2 q + 1) := by
  obtain ⟨he1, he2⟩ := intLog2_spec q h.1 h.2
  set e := intLog2 q with he
  have hm53 : q * (2 : ℚ) ^ (52 - e) < (2 : ℚ) ^ (53 : ℤ) := by
    have := mul_lt_mul_of_pos_right he2 (by positivity : (0 : ℚ) < (2 : ℚ) ^ (52 - e))
    calc q * (2 : ℚ) ^ (52 - e) < (2 : ℚ) ^ (e + 1) * (2 : ℚ) ^ (52 - e) := this
      _ = (2 : ℚ) ^ (53 : ℤ) := by rw [← zpow_add₀ two_q_ne]; congr 1; ring
  have hfloor : ⌊q * (2 : ℚ) ^ (52 - e)⌋ < (2 ^ 53 : ℤ) := by
    have : q * (2 : ℚ) ^ (52 - e) < ((2 ^ 53 : ℤ) : ℚ) := by
      rw [show ((2 ^ 53 : ℤ) : ℚ) = (2 : ℚ) ^ (53 : ℤ) by norm_cast]
      exact hm53
    exact Int.floor_lt.2 this
  have hint : roundHalfEven (q * (2 : ℚ) ^ (52 - e)) ≤ (2 ^ 53 : ℤ) := by
    have := roundHalfEven_le_floor_add_one (q * (2 : ℚ) ^ (52 - e))
    omega
  have hfl : (roundHalfEven (q * (2 : ℚ) ^ (52 - e)) : ℚ) ≤ (2 : ℚ) ^ (53 : ℤ) := by
    calc (roundHalfEven (q * (2 : ℚ) ^ (52 - e)) : ℚ) ≤ ((2 ^ 53 : ℤ) : ℚ) := by exact_mod_cast hint
      _ = (2 : ℚ) ^ (53 : ℤ) := by norm_cast
  calc flPos q ≤ (2 : ℚ) ^ (53 : ℤ) * (2 : ℚ) ^ (e - 52) :=
        mul_le_mul_of_nonneg_right hfl (by positivity)
    _ = (2 : ℚ) ^ (e + 1) := by rw [← zpow_add₀ two_q_ne]; congr 1; ring

lemma flPos_nonneg (q : ℚ) (h : FlRange q) : 0 ≤ flPos q :=
  le_trans (by positivity) (flPos_ge_zpow q h)

lemma flPos_mono (q q' : ℚ) (h : FlRange q) (h' : FlRange q') (hle : q ≤ q') :
    flPos q ≤ flPos q' := by
  obtain ⟨he1, he2⟩ := intLog2_spec q h.1 h.2
  obtain ⟨he1', he2'⟩ := intLog2_spec q' h'.1 h'.2
  have hee : intLog2 q ≤ intLog2 q' := by
    by_contra hc
    push_neg at hc
    have : q' < q := by
      calc q' < (2 : ℚ) ^ (intLog2 q' + 1) := he2'
        _ ≤ (2 : ℚ) ^ (intLog2 q) := zpow_le_zpow_right₀ (by norm_num) (by omega)
        _ ≤ q := he1
    linarith
  rcases lt_or_eq_of_le hee with hlt | heq
  · calc flPos q ≤ (2 : ℚ) ^ (intLog2 q + 1) := flPos_le_zpow q h
      _ ≤ (2 : ℚ) ^ (intLog2 q') := zpow_le_zpow_right₀ (by norm_num) (by omega)
      _ ≤ flPos q' := flPos_ge_zpow q' h'
  · unfold flPos
    rw [← heq]
    have hmm : q * (2 : ℚ) ^ (52 - intLog2 q) ≤ q' * (2 : ℚ) ^ (52 - intLog2 q) :=
      mul_le_mul_of_nonneg_right hle (by positivity)
    have := roundHalfEven_mono hmm
    exact mul_le_mul_of_nonneg_right (by exact_mod_cast this) (by positivity)

lemma flPos_natCast (n : ℕ) (h1 : 1 ≤ n) (h2 : n ≤ 2 ^ 52) : flPos (n : ℚ) = n := by
  have hr : FlRange (n : ℚ) := by
    constructor
    · calc ((2 : ℚ) ^ (-60 : ℤ) : ℚ) ≤ 1 := by norm_num
        _ ≤ (n : ℚ) := by exact_mod_cast h1
    · calc (n : ℚ) ≤ ((2 ^ 52 : ℕ) : ℚ) := by exact_mod_cast h2
        _ < (2 : ℚ) ^ (130 : ℤ) := by norm_num
  obtain ⟨he1, he2⟩ := intLog2_spec (n : ℚ) hr.1 hr.2
  set e := intLog2 (n : ℚ) with he
  have he0 : 0 ≤ e := by
    by_contra hc
    push_neg at hc
    have h2e : (2 : ℚ) ^ (e + 1) ≤ (2 : ℚ) ^ (0 : ℤ) := zpow_le_zpow_right₀ (by norm_num) (by omega)
    have hn1 : (1 : ℚ) ≤ (n : ℚ) := by exact_mod_cast h1
    simp only [zpow_zero] at h2e
    linarith
  have he52 : e ≤ 52 := by
    by_contra hc
    push_neg at hc
    have h2e : (2 : ℚ) ^ (53 : ℤ) ≤ (2 : ℚ) ^ e := zpow_le_zpow_right₀ (by norm_num) (by omega)
    have hn2 : (n : ℚ) ≤ ((2 ^ 52 : ℕ) : ℚ) := by exact_mod_cast h2
    have : ((2 ^ 52 : ℕ) : ℚ) < (2 : ℚ) ^ (53 : ℤ) := by norm_num
    linarith
  set j : ℕ := (52 - e).toNat with hj
  have hj' : (52 - e : ℤ) = (j : ℤ) := by omega
  have hint : (n : ℚ) * (2 : ℚ) ^ (52 - e) = ((n * 2 ^ j : ℕ) : ℚ) := by
    rw [hj']
    push_cast
    rw [zpow_natCast]
  unfold flPos
  rw [← he, hint]
  have hrhe : roundHalfEven ((↑(n * 2 ^ j) : ℚ)) = (n * 2 ^ j : ℕ) := by
    have := roundHalfEven_intCast ((n * 2 ^ j : ℕ) : ℤ)
    rw [show (((n * 2 ^ j : ℕ) : ℤ) : ℚ) = ((n * 2 ^ j : ℕ) : ℚ) by norm_cast] at this
    exact this
  rw [hrhe]
  rw [show (((n * 2 ^ j : ℕ) : ℤ) : ℚ) = (n : ℚ) * (2 : ℚ) ^ (j : ℤ) by push_cast; rw [zpow_natCast]]
  rw [mul_assoc, ← zpow_add₀ two_q_ne]
  rw [show ((j : ℤ) + (e - 52)) = 0 by omega]
  simp

lemma flDouble_zero : flDouble 0 = 0 := by simp [flDouble]

lemma flDouble_of_pos {q : ℚ} (hq : 0 < q) : flDouble q = flPos q := by
  unfold flDouble
  rw [if_neg hq.ne', if_neg (not_lt.2 hq.le)]

lemma flDouble_natCast (n : ℕ) (h2 : n ≤ 2 ^ 52) : flDouble (n : ℚ) = n := by
  rcases Nat.eq_zero_or_pos n with h0 | h1
  · subst h0; simpa using flDouble_zero
  · rw [flDouble_of_pos (by exact_mod_cast h1)]
    exact flPos_natCast n h1 h2

/-- `light.py` / `group.py` brightness scaling of one channel:
`int(c * (brightness / 255))` evaluated in Python float arithmetic
(`/` is correctly rounded binary64 division, `*` correctly rounded binary64
multiplication, `int` truncates toward zero). -/
def scaleChannel (c brightness : ℕ) : ℕ :=
  (⌊flDouble ((c : ℚ) * flDouble ((brightness : ℚ) / 255))⌋).toNat

lemma eps_eq : ((2 : ℚ) ^ (-53 : ℤ) : ℚ) = 1 / 2 ^ 53 := by
  rw [zpow_neg]
  norm_num

lemma flRange_div255 (b : ℕ) (hb1 : 1 ≤ b) (hb2 : b ≤ 255) : FlRange ((b : ℚ) / 255) := by
  constructor
  · rw [show ((2 : ℚ) ^ (-60 : ℤ) : ℚ) = 1 / 2 ^ 60 by rw [zpow_neg]; norm_num]
    have : (1 : ℚ) ≤ (b : ℚ) := by exact_mod_cast hb1
    rw [div_le_div_iff₀ (by norm_num) (by norm_num)]
    nlinarith
  · have : (b : ℚ) ≤ 255 := by exact_mod_cast hb2
    have h1 : (b : ℚ) / 255 ≤ 1 := by
      rw [div_le_one (by norm_num)]; linarith
    calc (b : ℚ) / 255 ≤ 1 := h1
      _ < (2 : ℚ) ^ (130 : ℤ) := by
        rw [show ((2 : ℚ) ^ (130 : ℤ) : ℚ) = 2 ^ 130 by norm_cast]
        norm_num

lemma scaleChannel_zero_left (b : ℕ) : scaleChannel 0 b = 0 := by
  unfold scaleChannel
  norm_num [flDouble_zero]

lemma scaleChannel_zero_right (c : ℕ) : scaleChannel c 0 = 0 := by
  unfold scaleChannel
  norm_num [flDouble_zero]

set_option maxHeartbeats 800000 in
/-- The intermediate product `c * float(b/255)` is positive, in range, and
within `255 * 2^(-53)` of the exact `c*b/255`. -/
lemma flRange_prod (c b : ℕ) (hc1 : 1 ≤ c) (hc2 : c ≤ 255) (hb1 : 1 ≤ b) (hb2 : b ≤ 255) :
    FlRange ((c : ℚ) * flDouble ((b : ℚ) / 255)) ∧
    (0 : ℚ) < (c : ℚ) * flDouble ((b : ℚ) / 255) ∧
    (c : ℚ) * (b : ℚ) / 255 - 255 * (2 : ℚ) ^ (-53 : ℤ) ≤ (c : ℚ) * flDouble ((b : ℚ) / 255) ∧
    (c : ℚ) * flDouble ((b : ℚ) / 255) ≤ (c : ℚ) * (b : ℚ) / 255 + 255 * (2 : ℚ) ^ (-53 : ℤ) := by
  have hεval : ((2 : ℚ) ^ (-53 : ℤ) : ℚ) = 1 / 2 ^ 53 := eps_eq
  have hqr : FlRange ((b : ℚ) / 255) := flRange_div255 b hb1 hb2
  have hbQ1 : (1 : ℚ) ≤ (b : ℚ) := by exact_mod_cast hb1
  have hbQ2 : (b : ℚ) ≤ 255 := by exact_mod_cast hb2
  have hcQ1 : (1 : ℚ) ≤ (c : ℚ) := by exact_mod_cast hc1
  have hcQ2 : (c : ℚ) ≤ 255 := by exact_mod_cast hc2
  have hq0 : (0 : ℚ) < (b : ℚ) / 255 := by positivity
  have hu_hi : flDouble ((b : ℚ) / 255) ≤
      (b : ℚ) / 255 + (b : ℚ) / 255 * (2 : ℚ) ^ (-53 : ℤ) := by
    rw [flDouble_of_pos hq0]
    exact flPos_le_err _ hqr
  have hu_lo : (b : ℚ) / 255 - (b : ℚ) / 255 * (2 : ℚ) ^ (-53 : ℤ) ≤
      flDouble ((b : ℚ) / 255) := by
    rw [flDouble_of_pos hq0]
    exact flPos_ge_err _ hqr
  set ε : ℚ := (2 : ℚ) ^ (-53 : ℤ) with hε
  clear_value ε
  set q : ℚ := (b : ℚ) / 255 with hq
  set u : ℚ := flDouble q with hu
  clear_value u
  clear_value q
  have hεpos : 0 < ε := by rw [hεval]; norm_num
  have hεsmall : ε ≤ 1 / 2 := by rw [hεval]; norm_num
  have hq1 : q ≤ 1 := by rw [hq, div_le_one (by norm_num)]; linarith
  have hqlo : 1 / 255 ≤ q := by
    rw [hq, div_le_div_iff₀ (by norm_num) (by norm_num)]; linarith
  have hq0' : 0 < q := by rw [hq]; positivity
  have hqε : q * ε ≤ q / 2 := by
    have := mul_le_mul_of_nonneg_left hεsmall hq0'.le
    linarith
  have hqεnn : 0 ≤ q * ε := mul_nonneg hq0'.le hεpos.le
  have hu_pos : 0 < u := by linarith
  have hu_ge_half : q / 2 ≤ u := by linarith
  have hu_le_two : u ≤ 2 := by linarith
  have hcq : (c : ℚ) * q = (c : ℚ) * (b : ℚ) / 255 := by rw [hq]; ring
  have h2 : (c : ℚ) * (q * ε) ≤ 255 * ε := by
    have ha : q * ε ≤ 1 * ε := mul_le_mul_of_nonneg_right hq1 hεpos.le
    have hb' : (c : ℚ) * (q * ε) ≤ 255 * (1 * ε) :=
      mul_le_mul hcQ2 ha hqεnn (by norm_num)
    linarith
  have hElo : (c : ℚ) * (b : ℚ) / 255 - 255 * ε ≤ (c : ℚ) * u := by
    have h1 : (c : ℚ) * (q - q * ε) ≤ (c : ℚ) * u :=
      mul_le_mul_of_nonneg_left hu_lo (by linarith)
    rw [mul_sub] at h1
    rw [← hcq]
    linarith
  have hEhi : (c : ℚ) * u ≤ (c : ℚ) * (b : ℚ) / 255 + 255 * ε := by
    have h1 : (c : ℚ) * u ≤ (c : ℚ) * (q + q * ε) :=
      mul_le_mul_of_nonneg_left hu_hi (by linarith)
    rw [mul_add] at h1
    rw [← hcq]
    linarith
  have hprod_pos : (0 : ℚ) < (c : ℚ) * u := mul_pos (by linarith) hu_pos
  refine ⟨⟨?_, ?_⟩, hprod_pos, hElo, hEhi⟩
  · rw [show ((2 : ℚ) ^ (-60 : ℤ) : ℚ) = 1 / 2 ^ 60 by rw [zpow_neg]; norm_num]
    have h1 : (1 : ℚ) / 510 ≤ (c : ℚ) * u := by
      have hhalf : (1 : ℚ) / 510 ≤ q / 2 := by linarith
      calc (1 : ℚ) / 510 ≤ q / 2 := hhalf
        _ = 1 * (q / 2) := by ring
        _ ≤ (c : ℚ) * u := mul_le_mul hcQ1 hu_ge_half (by linarith) (by linarith)
    calc (1 : ℚ) / 2 ^ 60 ≤ 1 / 510 := by norm_num
      _ ≤ (c : ℚ) * u := h1
  · rw [show ((2 : ℚ) ^ (130 : ℤ) : ℚ) = 2 ^ 130 by norm_cast]
    have : (c : ℚ) * u ≤ 255 * 2 := mul_le_mul hcQ2 hu_le_two hu_pos.le (by norm_num)
    calc (c : ℚ) * u ≤ 510 := by linarith
      _ < 2 ^ 130 := by norm_num

set_option maxHeartbeats 800000 in
/-- Main bounds: the doubly rounded float value in `scaleChannel` is within
`765 * 2^(-53)` of the exact rational `c*b/255`, for `1 ≤ c, b ≤ 255`. -/
lemma scale_aux (c b : ℕ) (hc1 : 1 ≤ c) (hc2 : c ≤ 255) (hb1 : 1 ≤ b) (hb2 : b ≤ 255) :
    (c : ℚ) * b / 255 - 765 * (2 : ℚ) ^ (-53 : ℤ) ≤
      flDouble ((c : ℚ) * flDouble ((b : ℚ) / 255)) ∧
    flDouble ((c : ℚ) * flDouble ((b : ℚ) / 255)) ≤
      (c : ℚ) * b / 255 + 765 * (2 : ℚ) ^ (-53 : ℤ) := by
  obtain ⟨hpr, hp0, hplo, hphi⟩ := flRange_prod c b hc1 hc2 hb1 hb2
  have hεval : ((2 : ℚ) ^ (-53 : ℤ) : ℚ) = 1 / 2 ^ 53 := eps_eq
  have hv_hi : flDouble ((c : ℚ) * flDouble ((b : ℚ) / 255)) ≤
      (c : ℚ) * flDouble ((b : ℚ) / 255) +
        (c : ℚ) * flDouble ((b : ℚ) / 255) * (2 : ℚ) ^ (-53 : ℤ) := by
    rw [flDouble_of_pos hp0]
    exact flPos_le_err _ hpr
  have hv_lo : (c : ℚ) * flDouble ((b : ℚ) / 255) -
      (c : ℚ) * flDouble ((b : ℚ) / 255) * (2 : ℚ) ^ (-53 : ℤ) ≤
      flDouble ((c : ℚ) * flDouble ((b : ℚ) / 255)) := by
    rw [flDouble_of_pos hp0]
    exact flPos_ge_err _ hpr
  set ε : ℚ := (2 : ℚ) ^ (-53 : ℤ) with hε
  clear_value ε
  set p : ℚ := (c : ℚ) * flDouble ((b : ℚ) / 255) with hp
  set v : ℚ := flDouble p with hv
  clear_value v
  clear_value p
  have hεpos : 0 < ε := by rw [hεval]; norm_num
  have hεsmall : ε ≤ 1 / 2 := by rw [hεval]; norm_num
  have hcQ2 : (c : ℚ) ≤ 255 := by exact_mod_cast hc2
  have hbQ2 : (b : ℚ) ≤ 255 := by exact_mod_cast hb2
  have hcQ0 : (0 : ℚ) ≤ (c : ℚ) := by positivity
  have hE255 : (c : ℚ) * (b : ℚ) / 255 ≤ 255 := by
    rw [div_le_iff₀ (by norm_num : (0 : ℚ) < 255)]
    nlinarith
  have hpb : p ≤ 255 + 255 * ε := by linarith
  have hpε_hi : p * ε ≤ (255 + 255 * ε) * ε := mul_le_mul_of_nonneg_right hpb hεpos.le
  have hεε : (255 + 255 * ε) * ε ≤ 510 * ε := by nlinarith
  have hpε_lo : 0 ≤ p * ε := mul_nonneg hp0.le hεpos.le
  have hgoal1 : (c : ℚ) * b / 255 = (c : ℚ) * (b : ℚ) / 255 := by ring
  constructor
  · rw [hgoal1]; linarith
  · rw [hgoal1]; linarith

/-- The float truncation never exceeds the exact integer quotient. -/
lemma scaleChannel_le_exact (c b : ℕ) (hc2 : c ≤ 255) (hb2 : b ≤ 255) :
    scaleChannel c b ≤ c * b / 255 := by
  rcases Nat.eq_zero_or_pos c with hc0 | hc1
  · subst hc0; rw [scaleChannel_zero_left]; exact Nat.zero_le _
  rcases Nat.eq_zero_or_pos b with hb0 | hb1
  · subst hb0; rw [scaleChannel_zero_right]; exact Nat.zero_le _
  obtain ⟨-, hi⟩ := scale_aux c b hc1 hc2 hb1 hb2
  set k : ℕ := c * b / 255 with hk
  set s : ℕ := c * b % 255 with hs
  have hcb : c * b = 255 * k + s := by rw [hk, hs]; omega
  have hs254 : s ≤ 254 := by omega
  have hEeq : (c : ℚ) * b / 255 = (k : ℚ) + (s : ℚ) / 255 := by
    have : ((c * b : ℕ) : ℚ) = 255 * (k : ℚ) + (s : ℚ) := by exact_mod_cast congrArg (Nat.cast : ℕ → ℚ) hcb
    push_cast at this ⊢
    field_simp
    linarith
  have hsQ : (s : ℚ) ≤ 254 := by exact_mod_cast hs254
  have hlt : flDouble ((c : ℚ) * flDouble ((b : ℚ) / 255)) < (k : ℚ) + 1 := by
    have hconst : (254 : ℚ) / 255 + 765 * (2 : ℚ) ^ (-53 : ℤ) < 1 := by
      rw [eps_eq]; norm_num
    calc flDouble ((c : ℚ) * flDouble ((b : ℚ) / 255))
        ≤ (c : ℚ) * b / 255 + 765 * (2 : ℚ) ^ (-53 : ℤ) := hi
      _ = (k : ℚ) + ((s : ℚ) / 255 + 765 * (2 : ℚ) ^ (-53 : ℤ)) := by rw [hEeq]; ring
      _ ≤ (k : ℚ) + ((254 : ℚ) / 255 + 765 * (2 : ℚ) ^ (-53 : ℤ)) := by
          have : (s : ℚ) / 255 ≤ 254 / 255 := by linarith
          linarith
      _ < (k : ℚ) + 1 := by linarith
  have hfloor : ⌊flDouble ((c : ℚ) * flDouble ((b : ℚ) / 255))⌋ < (k : ℤ) + 1 := by
    apply Int.floor_lt.2
    push_cast
    exact hlt
  unfold scaleChannel
  omega

/-- The float truncation is at most one below the exact integer quotient. -/
lemma exact_le_scaleChannel_succ (c b : ℕ) (hc2 : c ≤ 255) (hb2 : b ≤ 255) :
    c * b / 255 ≤ scaleChannel c b + 1 := by
  rcases Nat.eq_zero_or_pos c with hc0 | hc1
  · subst hc0; simp
  rcases Nat.eq_zero_or_pos b with hb0 | hb1
  · subst hb0; simp
  obtain ⟨hlo, -⟩ := scale_aux c b hc1 hc2 hb1 hb2
  set k : ℕ := c * b / 255 with hk
  have hkE : (k : ℚ) ≤ (c : ℚ) * b / 255 := by
    rw [le_div_iff₀ (by norm_num : (0 : ℚ) < 255)]
    have : (k * 255 : ℕ) ≤ c * b := by
      rw [hk]; exact Nat.div_mul_le_self (c * b) 255
    exact_mod_cast this
  have hgt : ((k : ℚ) - 1 : ℚ) < flDouble ((c : ℚ) * flDouble ((b : ℚ) / 255)) := by
    have hconst : (765 : ℚ) * (2 : ℚ) ^ (-53 : ℤ) < 1 := by rw [eps_eq]; norm_num
    calc ((k : ℚ) - 1 : ℚ) < (c : ℚ) * b / 255 - 765 * (2 : ℚ) ^ (-53 : ℤ) := by linarith
      _ ≤ _ := hlo
  have hfloor : (k : ℤ) - 1 ≤ ⌊flDouble ((c : ℚ) * flDouble ((b : ℚ) / 255))⌋ := by
    apply Int.le_floor.2
    push_cast
    linarith
  unfold scaleChannel
  omega

/-- Brightness scaling at full brightness is the identity. -/
lemma scaleChannel_full (c : ℕ) (hc : c ≤ 255) : scaleChannel c 255 = c := by
  unfold scaleChannel
  have h1 : ((255 : ℕ) : ℚ) / 255 = ((1 : ℕ) : ℚ) := by norm_num
  rw [h1, flDouble_natCast 1 (by norm_num)]
  rw [show ((1 : ℕ) : ℚ) = (1 : ℚ) by norm_num, mul_one]
  rw [flDouble_natCast c (by calc c ≤ 255 := hc
    _ ≤ 2 ^ 52 := by norm_num)]
  simp

/-- Brightness scaling is monotone in the brightness argument. -/
lemma scaleChannel_mono (c b b' : ℕ) (hc2 : c ≤ 255) (hbb : b ≤ b') (hb2 : b' ≤ 255) :
    scaleChannel c b ≤ scaleChannel c b' := by
  rcases Nat.eq_zero_or_pos c with hc0 | hc1
  · subst hc0; rw [scaleChannel_zero_left, scaleChannel_zero_left]
  rcases Nat.eq_zero_or_pos b with hb0 | hb1
  · subst hb0; rw [scaleChannel_zero_right]; exact Nat.zero_le _
  have hb1' : 1 ≤ b' := le_trans hb1 hbb
  have hb2' : b ≤ 255 := le_trans hbb hb2
  have hqr : FlRange ((b : ℚ) / 255) := flRange_div255 b hb1 hb2'
  have hqr' : FlRange ((b' : ℚ) / 255) := flRange_div255 b' hb1' hb2
  have hqq : (b : ℚ) / 255 ≤ (b' : ℚ) / 255 := by
    have hc : (b : ℚ) ≤ (b' : ℚ) := by exact_mod_cast hbb
    linarith
  have hq0 : (0 : ℚ) < (b : ℚ) / 255 := by positivity
  have hq0' : (0 : ℚ) < (b' : ℚ) / 255 := by positivity
  have huu : flDouble ((b : ℚ) / 255) ≤ flDouble ((b' : ℚ) / 255) := by
    rw [flDouble_of_pos hq0, flDouble_of_pos hq0']
    exact flPos_mono _ _ hqr hqr' hqq
  have hpp : (c : ℚ) * flDouble ((b : ℚ) / 255) ≤ (c : ℚ) * flDouble ((b' : ℚ) / 255) :=
    mul_le_mul_of_nonneg_left huu (by positivity)
  obtain ⟨hpr, hp0, -, -⟩ := flRange_prod c b hc1 hc2 hb1 hb2'
  obtain ⟨hpr', hp0', -, -⟩ := flRange_prod c b' hc1 hc2 hb1' hb2
  have hvv : flDouble ((c : ℚ) * flDouble ((b : ℚ) / 255)) ≤
      flDouble ((c : ℚ) * flDouble ((b' : ℚ) / 255)) := by
    rw [flDouble_of_pos hp0, flDouble_of_pos hp0']
    exact flPos_mono _ _ hpr hpr' hpp
  unfold scaleChannel
  have := Int.floor_le_floor hvv
  omega

/-! ### Panel state store and commanded colors (`light.py`) -/

/-- The per-segment commanded state kept in the module-level `SEGMENT_STATES`
dict (and, with the same shape, the per-group `GROUP_STATES` dict). -/
structure SegState where
  is_on : Bool
  brightness : ℕ
  rgb_color : ℕ × ℕ × ℕ
deriving DecidableEq

/-- The state installed by the entity constructors:
`{"is_on": True, "brightness": 255, "rgb_color": (255, 255, 255)}`. -/
def defaultSegState : SegState := ⟨true, 255, (255, 255, 255)⟩

/-- The visible color computed by `_async_set_panel_color` /
`_async_set_group_color`: brightness-scaled RGB when on, `(0,0,0)` when off. -/
def visibleColor (st : SegState) : ℕ × ℕ × ℕ :=
  if st.is_on then
    (scaleChannel st.rgb_color.1 st.brightness,
     scaleChannel st.rgb_color.2.1 st.brightness,
     scaleChannel st.rgb_color.2.2 st.brightness)
  else (0, 0, 0)

/-- Python dict assignment `d[k] = v`: replace in place if the key exists,
append otherwise. -/
def dictInsert {α : Type} (d : List (ℕ × α)) (k : ℕ) (v : α) : List (ℕ × α) :=
  if (d.lookup k).isSome then d.map (fun kv => if kv.1 = k then (k, v) else kv)
  else d ++ [(k, v)]

/-- `SEGMENT_STATES.get(key, default)` for one config entry, keyed by panel id. -/
def lookupState (store : List (ℕ × SegState)) (pid : ℕ) : SegState :=
  (store.lookup pid).getD defaultSegState

/-- The entity constructor (`NanoleafSegmentLight.__init__`, lines 117–123):
insert the default state if the key is not present yet. -/
def ensureKey (store : List (ℕ × SegState)) (pid : ℕ) : List (ℕ × SegState) :=
  if (store.lookup pid).isSome then store else store ++ [(pid, defaultSegState)]

/-- `async_turn_on` state mutation: set `is_on`, optionally overwrite
brightness and rgb_color from the service call arguments. -/
def turnOnState (old : SegState) (brightness? : Option ℕ) (rgb? : Option (ℕ × ℕ × ℕ)) :
    SegState :=
  { is_on := true,
    brightness := brightness?.getD old.brightness,
    rgb_color := rgb?.getD old.rgb_color }

/-- `async_turn_off` state mutation: clear `is_on`, keep the rest. -/
def turnOffState (old : SegState) : SegState := { old with is_on := false }

/-! ### Control-plane custom animation commands -/

/-- One `"panelId 1 R G B 0 transitionTime"` fragment of an `animData` string. -/
structure AnimPart where
  panelId : ℕ
  frames : ℕ
  r : ℕ
  g : ℕ
  b : ℕ
  w : ℕ
  transitionTime : ℕ
deriving DecidableEq

/-- A `"numPanels part1 part2 ..."` custom-animation command. -/
structure AnimCmd where
  numPanels : ℕ
  parts : List AnimPart
deriving DecidableEq

def mkPart (pid : ℕ) (c : ℕ × ℕ × ℕ) (t : ℕ) : AnimPart :=
  ⟨pid, 1, c.1, c.2.1, c.2.2, 0, t⟩

/-- `_async_set_panel_color` (light.py lines 215–285): build the command over
ALL segments of the layout; the target panel gets the freshly computed color,
every other panel the brightness-scaled color of its stored (or default)
state. -/
def setPanelColorCmd (store : List (ℕ × SegState)) (segments : List ℕ)
    (target : ℕ) (transitionTime : ℕ) : AnimCmd :=
  ⟨segments.length,
   segments.map (fun pid =>
     if pid = target then mkPart pid (visibleColor (lookupState store target)) transitionTime
     else mkPart pid (visibleColor (lookupState store pid)) transitionTime)⟩

/-- The complete per-panel `turn_on` path: constructor store initialisation,
`async_turn_on` state mutation, then `_async_set_panel_color`. -/
def perPanelTurnOn (store : List (ℕ × SegState)) (segments : List ℕ) (target : ℕ)
    (brightness? : Option ℕ) (rgb? : Option (ℕ × ℕ × ℕ)) (transitionTime : ℕ) :
    List (ℕ × SegState) × AnimCmd :=
  let store₀ := ensureKey store target
  let store₁ := dictInsert store₀ target (turnOnState (lookupState store₀ target) brightness? rgb?)
  (store₁, setPanelColorCmd store₁ segments target transitionTime)

/-- The complete per-panel `turn_off` path. -/
def perPanelTurnOff (store : List (ℕ × SegState)) (segments : List ℕ) (target : ℕ)
    (transitionTime : ℕ) : List (ℕ × SegState) × AnimCmd :=
  let store₀ := ensureKey store target
  let store₁ := dictInsert store₀ target (turnOffState (lookupState store₀ target))
  (store₁, setPanelColorCmd store₁ segments target transitionTime)

/-- `set_multiple_panels` command construction (`__init__.py` lines 239–245):
one part per requested panel, count prefixed. -/
def setMultiplePanelsCmd (panel_colors : List (ℕ × (ℕ × ℕ × ℕ))) (transitionTime : ℕ) :
    AnimCmd :=
  ⟨panel_colors.length, panel_colors.map (fun pc => mkPart pc.1 pc.2 transitionTime)⟩

instance exceptDecEq {ε α : Type} [DecidableEq ε] [DecidableEq α] :
    DecidableEq (Except ε α) := fun a b => by
  cases a with
  | ok x =>
    cases b with
    | ok y =>
      exact if h : x = y then isTrue (by rw [h])
        else isFalse (by intro hc; injection hc; contradiction)
    | error y => exact isFalse (by intro hc; exact Except.noConfusion hc)
  | error x =>
    cases b with
    | ok y => exact isFalse (by intro hc; exact Except.noConfusion hc)
    | error y =>
      exact if h : x = y then isTrue (by rw [h])
        else isFalse (by intro hc; injection hc; contradiction)

/-- Python-level exceptions that the embedding distinguishes. -/
inductive PyError
  | timeoutError
  | otherError
  | indexError
deriving DecidableEq

/-- Transport outcome of the `requests.put` in `set_multiple_panels`. -/
inductive HttpOutcome
  | success
  | timeout
  | failure
deriving DecidableEq

/-- The raw `requests.put(url, json=effect_data, timeout=0.5)` call. -/
def requestPut (o : HttpOutcome) : Except PyError Unit :=
  match o with
  | .success => .ok ()
  | .timeout => .error .timeoutError
  | .failure => .error .otherError

/-- `set_multiple_panels` (`__init__.py` lines 235–265): build the command and
issue the write; `except Timeout: pass`, `except Exception: pass`.  Returns the
command written together with what the caller observes. -/
def set_multiple_panels (panel_colors : List (ℕ × (ℕ × ℕ × ℕ))) (transitionTime : ℕ)
    (o : HttpOutcome) : AnimCmd × Except PyError Unit :=
  (setMultiplePanelsCmd panel_colors transitionTime,
   match requestPut o with
   | .ok _ => .ok ()
   | .error .timeoutError => .ok ()
   | .error _ => .ok ())

/-! ### UDP streaming (`set_multiple_panels_udp`, extControl v2 frames) -/

/-- Big-endian 2-byte encoding, `struct.pack('>H', n)` for `n < 2^16`. -/
def be16 (n : ℕ) : List ℕ := [n / 256, n % 256]

/-- One per-panel block: `struct.pack('>HBBBBH', panelId, r, g, b, 0, t)`. -/
def encodePanelEntry (pid : ℕ) (c : ℕ × ℕ × ℕ) (t : ℕ) : List ℕ :=
  be16 pid ++ [c.1, c.2.1, c.2.2, 0] ++ be16 t

/-- The full streaming datagram: 2-byte count then 8 bytes per panel. -/
def encodeUdpPacket (panel_colors : List (ℕ × (ℕ × ℕ × ℕ))) (t : ℕ) : List ℕ :=
  be16 panel_colors.length ++ (panel_colors.map (fun pc => encodePanelEntry pc.1 pc.2 t)).flatten

/-- Read one big-endian 2-byte quantity. -/
def readBe16 : List ℕ → Option (ℕ × List ℕ)
  | a :: b :: rest => some (a * 256 + b, rest)
  | _ => none

/-- Parse `n` consecutive 8-byte panel blocks. -/
def decodeEntries : ℕ → List ℕ → Option (List (ℕ × (ℕ × ℕ × ℕ)) × List ℕ)
  | 0, rest => some ([], rest)
  | n + 1, i1 :: i2 :: r :: g :: b :: _w :: _t1 :: _t2 :: rest =>
    match decodeEntries n rest with
    | some (es, rem) => some ((i1 * 256 + i2, (r, g, b)) :: es, rem)
    | none => none
  | _ + 1, _ => none

/-- Decode a whole streaming datagram back into count and panel colors. -/
def decodeUdpPacket (bytes : List ℕ) : Option (ℕ × List (ℕ × (ℕ × ℕ × ℕ))) :=
  match readBe16 bytes with
  | some (n, rest) =>
    match decodeEntries n rest with
    | some (es, []) => some (n, es)
    | _ => none
  | none => none

/-- Observable transport behaviour of one `set_multiple_panels_udp` call. -/
inductive SendEvent
  | udpAttempt (packet : List ℕ) (delivered : Bool)
  | httpSend (cmd : AnimCmd)
deriving DecidableEq

/-- `set_multiple_panels_udp` (`__init__.py` lines 207–233): delegate to the
reliable path when the streaming channel was never negotiated; otherwise send
one datagram (transition 2 tenths when `smooth`, else 0) and fall back to the
reliable path once if the attempt raises. -/
def set_multiple_panels_udp (enabled hasSocket udpOk : Bool)
    (panel_colors : List (ℕ × (ℕ × ℕ × ℕ))) (smooth : Bool) : List SendEvent :=
  if !enabled || !hasSocket then [.httpSend (setMultiplePanelsCmd panel_colors 0)]
  else if udpOk then
    [.udpAttempt (encodeUdpPacket panel_colors (if smooth then 2 else 0)) true]
  else
    [.udpAttempt (encodeUdpPacket panel_colors (if smooth then 2 else 0)) false,
     .httpSend (setMultiplePanelsCmd panel_colors 0)]

/-! ### Group updates (`group.py`) -/

/-- `_async_set_group_color` (group.py lines 197–231): compute the single
scaled color from the group state and send it to exactly the group's panels
via the streaming path with `smooth=True`. -/
def groupPanelColors (panelIds : List ℕ) (c : ℕ × ℕ × ℕ) : List (ℕ × (ℕ × ℕ × ℕ)) :=
  panelIds.foldl (fun d pid => dictInsert d pid c) []

def setGroupColor (st : SegState) (panelIds : List ℕ) (enabled hasSocket udpOk : Bool) :
    List SendEvent :=
  set_multiple_panels_udp enabled hasSocket udpOk
    (groupPanelColors panelIds (visibleColor st)) true

/-! ### Automatic grouping (`create_groups_by_position`, group.py lines 55–66) -/

/-- A segment as seen by the grouping code: its panel id and the optional
`angle_deg` attribute read by `s.get("angle_deg", 0)`. -/
structure SegInfo where
  panelId : ℕ
  angleDeg : Option ℚ
deriving DecidableEq

def angleKey (s : SegInfo) : ℚ := s.angleDeg.getD 0

/-- `sorted(segments, key=lambda s: s.get("angle_deg", 0))` — a stable sort by
angle (insertion sort is extensionally the stable sort). -/
def sortByAngle (segments : List SegInfo) : List SegInfo :=
  segments.insertionSort (fun a b => angleKey a ≤ angleKey b)

/-- Fuelled chunking, `[xs[i:i+g] for i in range(0, len(xs), g)]` for `g ≥ 1`
once the fuel covers the length. -/
def chunksFuel {α : Type} (g : ℕ) : ℕ → List α → List (List α)
  | 0, _ => []
  | _ + 1, [] => []
  | f + 1, x :: xs => ((x :: xs).take g) :: chunksFuel g f ((x :: xs).drop g)

def chunksOf {α : Type} (g : ℕ) (xs : List α) : List (List α) :=
  chunksFuel g xs.length xs

/-- `create_groups_by_position(segments, group_size)`. -/
def create_groups_by_position (segments : List SegInfo) (group_size : ℕ) :
    List (List SegInfo) :=
  chunksOf group_size (sortByAngle segments)

/-! ### Manual grouping (`async_setup_entry`, light.py lines 60–66) -/

/-- CPython list indexing `l[i]` for an `int` index: negative indices count
from the end; out-of-range raises `IndexError`. -/
def pyIndex {α : Type} (l : List α) (i : ℤ) : Except PyError α :=
  if (if i < 0 then i + l.length else i) < 0 then .error .indexError
  else
    match l.get? (if i < 0 then i + l.length else i).toNat with
    | some x => .ok x
    | none => .error .indexError

/-- `[segments[i] for i in group_indices if i < len(segments)]`. -/
def buildManualGroup {α : Type} (segments : List α) (idxs : List ℤ) :
    Except PyError (List α) :=
  (idxs.filter (fun i => i < (segments.length : ℤ))).mapM (pyIndex segments)

/-- The manual-group loop of `async_setup_entry`: build each group, keep the
nonempty ones, propagate any `IndexError`. -/
def manualGroups {α : Type} (segments : List α) (manual : List (List ℤ)) :
    Except PyError (List (List α)) := do
  let gs ← manual.mapM (buildManualGroup segments)
  return gs.filter (fun g => !g.isEmpty)

/-! ### Support lemmas: UDP round trip -/

lemma decodeEntries_encode (t : ℕ) : ∀ (colors : List (ℕ × (ℕ × ℕ × ℕ))) (rest : List ℕ),
    decodeEntries colors.length
      ((colors.map (fun pc => encodePanelEntry pc.1 pc.2 t)).flatten ++ rest) =
      some (colors, rest) := by
  intro colors
  induction colors with
  | nil => intro rest; simp [decodeEntries]
  | cons pc tl ih =>
    intro rest
    obtain ⟨pid, r, g, b⟩ := pc
    have hentry : encodePanelEntry pid (r, g, b) t =
        [pid / 256, pid % 256, r, g, b, 0, t / 256, t % 256] := rfl
    simp only [List.map_cons, List.flatten_cons, List.length_cons, hentry,
      List.append_assoc, List.cons_append, List.nil_append]
    rw [decodeEntries, ih rest]
    have hpid : pid / 256 * 256 + pid % 256 = pid := by omega
    simp [hpid]

lemma decodeUdpPacket_encode (colors : List (ℕ × (ℕ × ℕ × ℕ))) (t : ℕ) :
    decodeUdpPacket (encodeUdpPacket colors t) = some (colors.length, colors) := by
  have h := decodeEntries_encode t colors []
  rw [List.append_nil] at h
  have hlen : colors.length / 256 * 256 + colors.length % 256 = colors.length := by omega
  unfold decodeUdpPacket encodeUdpPacket be16
  simp only [List.cons_append, List.nil_append, readBe16, hlen, h]

lemma encode_reserved_byte (t : ℕ) : ∀ (colors : List (ℕ × (ℕ × ℕ × ℕ))) (i : ℕ),
    i < colors.length → (encodeUdpPacket colors t)[2 + 8 * i + 5]? = some 0 := by
  have key : ∀ (colors : List (ℕ × (ℕ × ℕ × ℕ))) (i : ℕ), i < colors.length →
      ((colors.map (fun pc => encodePanelEntry pc.1 pc.2 t)).flatten)[8 * i + 5]? = some 0 := by
    intro colors
    induction colors with
    | nil => intro i h; simp at h
    | cons pc tl ih =>
      intro i h
      obtain ⟨pid, r, g, b⟩ := pc
      have hentry : encodePanelEntry pid (r, g, b) t =
          [pid / 256, pid % 256, r, g, b, 0, t / 256, t % 256] := rfl
      simp only [List.map_cons, List.flatten_cons, hentry]
      cases i with
      | zero => rfl
      | succ j =>
        have hj : j < tl.length := by simpa using h
        rw [show 8 * (j + 1) + 5 = 8 + (8 * j + 5) by ring]
        rw [List.getElem?_append_right (by simp)]
        simpa using ih j hj
  intro colors i h
  unfold encodeUdpPacket be16
  rw [show 2 + 8 * i + 5 = 2 + (8 * i + 5) by ring]
  rw [show ([colors.length / 256, colors.length % 256] ++
      (colors.map fun pc => encodePanelEntry pc.1 pc.2 t).flatten : List ℕ) =
      (colors.length / 256 :: colors.length % 256 ::
        (colors.map fun pc => encodePanelEntry pc.1 pc.2 t).flatten : List ℕ) from rfl]
  rw [show (2 + (8 * i + 5)) = (8 * i + 5) + 1 + 1 by ring]
  rw [List.getElem?_cons_succ, List.getElem?_cons_succ]
  exact key colors i h

/-! ### Support lemmas: assoc-list dict operations -/

lemma lookup_append_of_none {α : Type} {l₁ : List (ℕ × α)} (l₂ : List (ℕ × α)) (k : ℕ)
    (h : l₁.lookup k = none) : (l₁ ++ l₂).lookup k = l₂.lookup k := by
  induction l₁ with
  | nil => simp
  | cons kv tl ih =>
    obtain ⟨a, v⟩ := kv
    simp only [List.lookup, List.cons_append] at h ⊢
    cases hka : (k == a)
    · rw [hka] at h
      exact ih h
    · rw [hka] at h
      cases h

lemma lookup_append_left {α : Type} {l₁ : List (ℕ × α)} (l₂ : List (ℕ × α)) (k : ℕ)
    {v : α} (h : l₁.lookup k = some v) : (l₁ ++ l₂).lookup k = some v := by
  induction l₁ with
  | nil => simp at h
  | cons kv tl ih =>
    obtain ⟨a, w⟩ := kv
    simp only [List.lookup, List.cons_append] at h ⊢
    cases hka : (k == a)
    · rw [hka] at h
      exact ih h
    · rw [hka] at h
      exact h

lemma lookup_singleton_self {α : Type} (k : ℕ) (v : α) :
    ([(k, v)] : List (ℕ × α)).lookup k = some v := by
  simp [List.lookup]

lemma lookup_singleton_ne {α : Type} (k k' : ℕ) (v : α) (h : k' ≠ k) :
    ([(k, v)] : List (ℕ × α)).lookup k' = none := by
  simp [List.lookup, beq_eq_false_iff_ne.2 h]

lemma lookup_map_replace {α : Type} (d : List (ℕ × α)) (k : ℕ) (v : α)
    (h : (d.lookup k).isSome) :
    (d.map (fun kv => if kv.1 = k then (k, v) else kv)).lookup k = some v := by
  induction d with
  | nil => simp [List.lookup] at h
  | cons kv tl ih =>
    obtain ⟨a, w⟩ := kv
    by_cases hak : a = k
    · subst hak
      have hmap : ((a, w) :: tl).map (fun kv => if kv.1 = a then (a, v) else kv) =
          (a, v) :: tl.map (fun kv => if kv.1 = a then (a, v) else kv) := by
        simp
      rw [hmap]
      simp [List.lookup]
    · have hmap : ((a, w) :: tl).map (fun kv => if kv.1 = k then (k, v) else kv) =
          (a, w) :: tl.map (fun kv => if kv.1 = k then (k, v) else kv) := by
        simp [hak]
      rw [hmap]
      simp only [List.lookup]
      rw [show (k == a) = false from beq_eq_false_iff_ne.2 (fun hc => hak hc.symm)]
      simp only [List.lookup] at h
      rw [show (k == a) = false from beq_eq_false_iff_ne.2 (fun hc => hak hc.symm)] at h
      exact ih h

lemma lookup_map_replace_ne {α : Type} (d : List (ℕ × α)) (k k' : ℕ) (v : α)
    (h : k' ≠ k) :
    (d.map (fun kv => if kv.1 = k then (k, v) else kv)).lookup k' = d.lookup k' := by
  induction d with
  | nil => simp
  | cons kv tl ih =>
    obtain ⟨a, w⟩ := kv
    by_cases hak : a = k
    · subst hak
      have hmap : ((a, w) :: tl).map (fun kv => if kv.1 = a then (a, v) else kv) =
          (a, v) :: tl.map (fun kv => if kv.1 = a then (a, v) else kv) := by
        simp
      rw [hmap]
      simp only [List.lookup]
      rw [show (k' == a) = false from beq_eq_false_iff_ne.2 h]
      exact ih
    · have hmap : ((a, w) :: tl).map (fun kv => if kv.1 = k then (k, v) else kv) =
          (a, w) :: tl.map (fun kv => if kv.1 = k then (k, v) else kv) := by
        simp [hak]
      rw [hmap]
      simp only [List.lookup]
      cases hka : (k' == a)
      · exact ih
      · rfl

lemma lookup_dictInsert_self {α : Type} (d : List (ℕ × α)) (k : ℕ) (v : α) :
    (dictInsert d k v).lookup k = some v := by
  unfold dictInsert
  by_cases h : (d.lookup k).isSome
  · rw [if_pos h]
    exact lookup_map_replace d k v h
  · rw [if_neg h]
    have hnone : d.lookup k = none := by
      cases hd : d.lookup k
      · rfl
      · rw [hd] at h; simp at h
    rw [lookup_append_of_none _ _ hnone]
    exact lookup_singleton_self k v

lemma lookup_dictInsert_ne {α : Type} (d : List (ℕ × α)) (k k' : ℕ) (v : α) (h : k' ≠ k) :
    (dictInsert d k v).lookup k' = d.lookup k' := by
  unfold dictInsert
  by_cases hs : (d.lookup k).isSome
  · rw [if_pos hs]
    exact lookup_map_replace_ne d k k' v h
  · rw [if_neg hs]
    cases hd : d.lookup k'
    · rw [lookup_append_of_none _ _ hd]
      exact lookup_singleton_ne k k' v h
    · exact lookup_append_left _ _ hd

lemma lookupState_dictInsert_self (store : List (ℕ × SegState)) (k : ℕ) (st : SegState) :
    lookupState (dictInsert store k st) k = st := by
  unfold lookupState
  rw [lookup_dictInsert_self]
  rfl

lemma lookupState_dictInsert_ne (store : List (ℕ × SegState)) (k k' : ℕ) (st : SegState)
    (h : k' ≠ k) : lookupState (dictInsert store k st) k' = lookupState store k' := by
  unfold lookupState
  rw [lookup_dictInsert_ne store k k' st h]

lemma lookupState_ensureKey_self (store : List (ℕ × SegState)) (k : ℕ) :
    lookupState (ensureKey store k) k = lookupState store k := by
  unfold ensureKey lookupState
  by_cases h : (store.lookup k).isSome
  · rw [if_pos h]
  · rw [if_neg h]
    have hnone : store.lookup k = none := by
      cases hd : store.lookup k
      · rfl
      · rw [hd] at h; simp at h
    rw [lookup_append_of_none _ _ hnone, lookup_singleton_self, hnone]
    rfl

lemma lookupState_ensureKey_ne (store : List (ℕ × SegState)) (k k' : ℕ) (h : k' ≠ k) :
    lookupState (ensureKey store k) k' = lookupState store k' := by
  unfold ensureKey lookupState
  by_cases hs : (store.lookup k).isSome
  · rw [if_pos hs]
  · rw [if_neg hs]
    cases hd : store.lookup k'
    · rw [lookup_append_of_none _ _ hd, lookup_singleton_ne k k' _ h]
    · rw [lookup_append_left _ _ hd]

/-! ### Support lemmas: group dict construction -/

lemma foldl_dictInsert_eq {α : Type} (c : α) :
    ∀ (ids : List ℕ) (acc : List (ℕ × α)), ids.Nodup →
      (∀ pid ∈ ids, acc.lookup pid = none) →
      ids.foldl (fun d pid => dictInsert d pid c) acc = acc ++ ids.map (fun pid => (pid, c)) := by
  intro ids
  induction ids with
  | nil => intro acc _ _; simp
  | cons pid tl ih =>
    intro acc hnd hnone
    have hpid : acc.lookup pid = none := hnone pid (by simp)
    have hins : dictInsert acc pid c = acc ++ [(pid, c)] := by
      unfold dictInsert
      rw [if_neg (by rw [hpid]; simp)]
    simp only [List.foldl_cons, hins]
    rw [ih (acc ++ [(pid, c)]) (by
        simpa using hnd.of_cons) (by
        intro p hp
        have hne : p ≠ pid := by
          intro hc
          subst hc
          exact (List.nodup_cons.1 hnd).1 hp
        rw [lookup_append_of_none _ _ (hnone p (by simp [hp])), lookup_singleton_ne pid p c hne])]
    simp

lemma groupPanelColors_eq (c : ℕ × ℕ × ℕ) (ids : List ℕ) (h : ids.Nodup) :
    groupPanelColors ids c = ids.map (fun pid => (pid, c)) := by
  unfold groupPanelColors
  rw [foldl_dictInsert_eq c ids [] h (by intro pid _; rfl)]
  simp

/-! ### Support lemmas: chunking -/

lemma chunksFuel_nil {α : Type} (g : ℕ) : ∀ f : ℕ, chunksFuel g f ([] : List α) = [] := by
  intro f
  cases f <;> rfl

lemma chunksFuel_join {α : Type} (g : ℕ) (hg : 1 ≤ g) :
    ∀ (f : ℕ) (xs : List α), xs.length ≤ f → (chunksFuel g f xs).flatten = xs := by
  intro f
  induction f with
  | zero =>
    intro xs h
    have : xs = [] := List.length_eq_zero.1 (by omega)
    subst this
    rfl
  | succ f ih =>
    intro xs h
    cases xs with
    | nil => rfl
    | cons x tl =>
      show ((x :: tl).take g :: chunksFuel g f ((x :: tl).drop g)).flatten = x :: tl
      simp only [List.flatten_cons]
      rw [ih ((x :: tl).drop g) (by
        simp only [List.length_drop, List.length_cons] at h ⊢
        omega)]
      exact List.take_append_drop g (x :: tl)

lemma chunksFuel_length {α : Type} (g : ℕ) (hg : 1 ≤ g) :
    ∀ (f : ℕ) (xs : List α), xs.length ≤ f →
      (chunksFuel g f xs).length = (xs.length + g - 1) / g := by
  intro f
  induction f with
  | zero =>
    intro xs h
    have : xs = [] := List.length_eq_zero.1 (by omega)
    subst this
    have e2 : (g - 1) / g = 0 := Nat.div_eq_of_lt (by omega)
    simp [chunksFuel, e2]
  | succ f ih =>
    intro xs h
    cases xs with
    | nil =>
      have e2 : (g - 1) / g = 0 := Nat.div_eq_of_lt (by omega)
      simp [chunksFuel, e2]
    | cons x tl =>
      show (((x :: tl).take g :: chunksFuel g f ((x :: tl).drop g))).length = _
      rw [List.length_cons, ih ((x :: tl).drop g) (by
        simp only [List.length_drop, List.length_cons] at h ⊢
        omega)]
      simp only [List.length_drop, List.length_cons]
      rcases le_or_lt (tl.length + 1) g with hle | hlt
      · have e1 : tl.length + 1 - g = 0 := by omega
        rw [e1]
        have e2 : (0 + g - 1) / g = 0 := Nat.div_eq_of_lt (by omega)
        have e3 : (tl.length + 1 + g - 1) / g = 1 := by
          refine Nat.div_eq_of_lt_le (by omega) (by omega)
        rw [e2, e3]
      · have e1 : tl.length + 1 - g + g - 1 = tl.length := by omega
        have e2 : tl.length + 1 + g - 1 = tl.length + g := by omega
        rw [e1, e2, Nat.add_div_right _ (by omega : 0 < g)]

lemma chunksFuel_dropLast {α : Type} (g : ℕ) (hg : 1 ≤ g) :
    ∀ (f : ℕ) (xs : List α), xs.length ≤ f →
      ∀ c ∈ (chunksFuel g f xs).dropLast, c.length = g := by
  intro f
  induction f with
  | zero =>
    intro xs h
    have : xs = [] := List.length_eq_zero.1 (by omega)
    subst this
    simp [chunksFuel]
  | succ f ih =>
    intro xs h c hc
    cases xs with
    | nil => simp [chunksFuel] at hc
    | cons x tl =>
      have hshape : chunksFuel g (f + 1) (x :: tl) =
          (x :: tl).take g :: chunksFuel g f ((x :: tl).drop g) := rfl
      rw [hshape] at hc
      cases hrest : chunksFuel g f ((x :: tl).drop g) with
      | nil =>
        rw [hrest] at hc
        simp at hc
      | cons r rs =>
        rw [hrest] at hc
        rw [List.dropLast_cons₂] at hc
        rcases List.mem_cons.1 hc with hhead | htail
        · subst hhead
          have hdrop : (x :: tl).drop g ≠ [] := by
            intro hcon
            rw [hcon, chunksFuel_nil] at hrest
            cases hrest
          have hlen : g < (x :: tl).length := by
            by_contra hcon
            push_neg at hcon
            exact hdrop (List.drop_eq_nil_of_le hcon)
          rw [List.length_take]
          simp only [List.length_cons] at hlen ⊢
          omega
        · have := ih ((x :: tl).drop g) (by
            simp only [List.length_drop, List.length_cons] at h ⊢
            omega)
          rw [hrest] at this
          exact this c htail

/-! ### Support lemmas: stability of the angle sort -/

lemma filter_orderedInsert (keyv : ℚ) (x : SegInfo) :
    ∀ l : List SegInfo,
      (l.orderedInsert (fun a b => angleKey a ≤ angleKey b) x).filter
          (fun s => decide (angleKey s = keyv)) =
        if angleKey x = keyv
        then x :: l.filter (fun s => decide (angleKey s = keyv))
        else l.filter (fun s => decide (angleKey s = keyv)) := by
  intro l
  induction l with
  | nil =>
    simp only [List.orderedInsert, List.filter]
    by_cases hx : angleKey x = keyv
    · rw [if_pos hx]
      simp [hx]
    · rw [if_neg hx]
      simp [hx]
  | cons b tl ih =>
    simp only [List.orderedInsert]
    by_cases hr : angleKey x ≤ angleKey b
    · rw [if_pos hr]
      by_cases hx : angleKey x = keyv
      · rw [if_pos hx]
        simp [List.filter, hx]
      · rw [if_neg hx]
        simp [List.filter, hx]
    · rw [if_neg hr]
      have hb : angleKey b < angleKey x := lt_of_not_le hr
      by_cases hx : angleKey x = keyv
      · rw [if_pos hx]
        have hbne : ¬ (angleKey b = keyv) := by
          rw [← hx]
          exact ne_of_lt hb
        simp only [List.filter, decide_eq_false hbne]
        rw [ih, if_pos hx]
      · rw [if_neg hx]
        by_cases hbv : angleKey b = keyv
        · have hb' : decide (angleKey b = keyv) = true := by simp [hbv]
          simp only [List.filter, hb']
          rw [ih, if_neg hx]
        · simp only [List.filter, decide_eq_false hbv]
          rw [ih, if_neg hx]

lemma filter_insertionSort (keyv : ℚ) :
    ∀ l : List SegInfo,
      (l.insertionSort (fun a b => angleKey a ≤ angleKey b)).filter
          (fun s => decide (angleKey s = keyv)) =
        l.filter (fun s => decide (angleKey s = keyv)) := by
  intro l
  induction l with
  | nil => rfl
  | cons x tl ih =>
    simp only [List.insertionSort]
    rw [filter_orderedInsert keyv x]
    by_cases hx : angleKey x = keyv
    · rw [if_pos hx, ih]
      simp [List.filter, hx]
    · rw [if_neg hx, ih]
      simp [List.filter, hx]

/-! ### Support lemmas: manual groups -/

lemma mapM_pyIndex {α : Type} (segments : List α) :
    ∀ (js : List ℤ),
      (∀ i ∈ js, -(segments.length : ℤ) ≤ i ∧ i < segments.length) →
      js.mapM (pyIndex segments) =
        .ok (js.filterMap
          (fun i => segments.get? (if i < 0 then i + (segments.length : ℤ) else i).toNat)) := by
  intro js
  induction js with
  | nil => intro _; rfl
  | cons i tl ih =>
    intro h
    obtain ⟨h1, h2⟩ := h i (by simp)
    have hj : 0 ≤ (if i < 0 then i + (segments.length : ℤ) else i) ∧
        (if i < 0 then i + (segments.length : ℤ) else i) < segments.length := by
      split_ifs with hi
      · omega
      · omega
    have hlt : (if i < 0 then i + (segments.length : ℤ) else i).toNat < segments.length := by
      omega
    have hget : segments.get? (if i < 0 then i + (segments.length : ℤ) else i).toNat =
        some (segments.get ⟨(if i < 0 then i + (segments.length : ℤ) else i).toNat, hlt⟩) :=
      List.get?_eq_get hlt
    have hpy : pyIndex segments i =
        .ok (segments.get ⟨(if i < 0 then i + (segments.length : ℤ) else i).toNat, hlt⟩) := by
      unfold pyIndex
      rw [if_neg (by omega), hget]
    rw [List.mapM_cons, hpy, ih (fun j hj' => h j (by simp [hj']))]
    simp only [List.filterMap_cons, hget]
    rfl

lemma buildManualGroup_ok {α : Type} (segments : List α) (idxs : List ℤ)
    (h : ∀ i ∈ idxs, -(segments.length : ℤ) ≤ i) :
    buildManualGroup segments idxs =
      .ok ((idxs.filter (fun i => i < (segments.length : ℤ))).filterMap
        (fun i => segments.get? (if i < 0 then i + (segments.length : ℤ) else i).toNat)) := by
  unfold buildManualGroup
  apply mapM_pyIndex
  intro i hi
  have hmem := List.of_mem_filter hi
  have hmem' := List.mem_of_mem_filter hi
  constructor
  · exact h i hmem'
  · simpa using hmem

/-- The amended behaviour of the manual-group loop, written out directly:
indices `≥ len(segments)` are dropped by the filter, the rest resolve with
Python semantics (negative indices count from the end), and empty groups are
dropped.  Total only when every index is `≥ -len(segments)`. -/
def manualGroupsAmendedSpec {α : Type} (segments : List α) (manual : List (List ℤ)) :
    List (List α) :=
  (manual.map (fun idxs =>
    (idxs.filter (fun i => i < (segments.length : ℤ))).filterMap
      (fun i => segments.get? (if i < 0 then i + (segments.length : ℤ) else i).toNat))).filter
    (fun g => !g.isEmpty)

lemma manualGroups_ok {α : Type} (segments : List α) (manual : List (List ℤ))
    (h : ∀ g ∈ manual, ∀ i ∈ g, -(segments.length : ℤ) ≤ i) :
    manualGroups segments manual = .ok (manualGroupsAmendedSpec segments manual) := by
  unfold manualGroups manualGroupsAmendedSpec
  have hmap : manual.mapM (buildManualGroup segments) =
      .ok (manual.map (fun idxs =>
        (idxs.filter (fun i => i < (segments.length : ℤ))).filterMap
          (fun i => segments.get? (if i < 0 then i + (segments.length : ℤ) else i).toNat))) := by
    induction manual with
    | nil => rfl
    | cons g tl ih =>
      rw [List.mapM_cons, buildManualGroup_ok segments g (h g (by simp)),
        ih (fun g' hg' i hi => h g' (by simp [hg']) i hi)]
      rfl
  rw [hmap]
  rfl

/-! ### Angle computation (`get_all_segments`, `__init__.py` lines 267–287)

The Python code uses `math.atan2` / `math.degrees` / float `%` / `round`;
these transcendental operations are modelled in exact real arithmetic
(`Complex.arg` is the mathematical `atan2`), with `round` as
round-half-to-even, which is the only part of this pipeline that is not
expressible computably. -/

/-- One entry of `positionData`. -/
structure PanelPos where
  shapeType : ℤ
  x : ℝ
  y : ℝ

/-- `[panel for panel in panels if panel.get("shapeType") == 18]`. -/
def filterLineSegments (panels : List PanelPos) : List PanelPos :=
  panels.filter (fun p => decide (p.shapeType = 18))

noncomputable def centroidX (ps : List PanelPos) : ℝ := (ps.map (fun p => p.x)).sum / ps.length

noncomputable def centroidY (ps : List PanelPos) : ℝ := (ps.map (fun p => p.y)).sum / ps.length

/-- `math.atan2 y x`, the argument of the point `(x, y)`, in `(-π, π]`. -/
noncomputable def atan2R (y x : ℝ) : ℝ := Complex.arg ⟨x, y⟩

/-- `math.degrees`. -/
noncomputable def degreesR (r : ℝ) : ℝ := r * 180 / Real.pi

/-- Python float `%` for a positive modulus: `a - m * ⌊a / m⌋`. -/
noncomputable def pymodR (a m : ℝ) : ℝ := a - m * ⌊a / m⌋

/-- Python `round(a, 2)`. -/
noncomputable def round2 (a : ℝ) : ℝ := (roundHalfEven (100 * a) : ℤ) / 100

/-- `angle_deg` as computed per panel over the filtered segment list:
`round((degrees(atan2(y - cy, x - cx)) + 360) % 360, 2)`. -/
noncomputable def angle_deg (segs : List PanelPos) (p : PanelPos) : ℝ :=
  round2 (pymodR (degreesR (atan2R (p.y - centroidY segs) (p.x - centroidX segs)) + 360) 360)

/-- All angles assigned by `get_all_segments`. -/
noncomputable def anglesOf (panels : List PanelPos) : List ℝ :=
  (filterLineSegments panels).map (angle_deg (filterLineSegments panels))

lemma pymodR_bounds (a m : ℝ) (hm : 0 < m) : 0 ≤ pymodR a m ∧ pymodR a m < m := by
  unfold pymodR
  have hfl : (⌊a / m⌋ : ℝ) ≤ a / m := Int.floor_le (a / m)
  have hfu : a / m < ⌊a / m⌋ + 1 := Int.lt_floor_add_one (a / m)
  constructor
  · have := mul_le_mul_of_nonneg_left hfl hm.le
    rw [mul_div_cancel₀ a hm.ne'] at this
    linarith
  · have := mul_lt_mul_of_pos_left hfu hm
    rw [mul_div_cancel₀ a hm.ne'] at this
    linarith

lemma round2_bounds (a : ℝ) (h0 : 0 ≤ a) (h360 : a < 360) :
    0 ≤ round2 a ∧ round2 a ≤ 360 := by
  unfold round2
  have hfl0 : (0 : ℤ) ≤ ⌊(100 : ℝ) * a⌋ := Int.floor_nonneg.2 (by linarith)
  have hge := roundHalfEven_ge_floor ((100 : ℝ) * a)
  have hlt : (100 : ℝ) * a < 36000 := by linarith
  have hfl36 : ⌊(100 : ℝ) * a⌋ < (36000 : ℤ) := Int.floor_lt.2 (by norm_num; linarith)
  have hle := roundHalfEven_le_floor_add_one ((100 : ℝ) * a)
  constructor
  · apply div_nonneg _ (by norm_num)
    have : (0 : ℤ) ≤ roundHalfEven ((100 : ℝ) * a) := le_trans hfl0 hge
    exact_mod_cast this
  · rw [div_le_iff₀ (by norm_num : (0 : ℝ) < 100)]
    have : roundHalfEven ((100 : ℝ) * a) ≤ 36000 := by omega
    calc (roundHalfEven ((100 : ℝ) * a) : ℝ) ≤ ((36000 : ℤ) : ℝ) := by exact_mod_cast this
      _ = 360 * 100 := by norm_num

/-- The raw (pre-rounding) angle is in `[0, 360)`, so the rounded angle is in
`[0, 360]`. -/
lemma angle_deg_bounds (segs : List PanelPos) (p : PanelPos) :
    0 ≤ angle_deg segs p ∧ angle_deg segs p ≤ 360 := by
  unfold angle_deg
  obtain ⟨h0, h1⟩ := pymodR_bounds
    (degreesR (atan2R (p.y - centroidY segs) (p.x - centroidX segs)) + 360) 360
    (by norm_num)
  exact round2_bounds _ h0 h1

/-- The concrete panel set for the counterexample: two line segments whose
centroid is `(100000, 0)`; the second panel sits a tiny angle below the
positive x-axis as seen from the centroid. -/
def cexPanelA : PanelPos := ⟨18, 0, 1⟩

def cexPanelB : PanelPos := ⟨18, 200000, -1⟩

lemma cex_filter : filterLineSegments [cexPanelA, cexPanelB] = [cexPanelA, cexPanelB] := by
  unfold filterLineSegments cexPanelA cexPanelB
  simp

lemma cex_centroid :
    centroidX [cexPanelA, cexPanelB] = 100000 ∧ centroidY [cexPanelA, cexPanelB] = 0 := by
  unfold centroidX centroidY cexPanelA cexPanelB
  norm_num

/-- The second panel's angle evaluates to exactly `360.00`. -/
lemma cex_angle : angle_deg [cexPanelA, cexPanelB] cexPanelB = 360 := by
  obtain ⟨hcx, hcy⟩ := cex_centroid
  unfold angle_deg
  rw [hcx, hcy]
  have hyB : cexPanelB.y = -1 := rfl
  have hxB : cexPanelB.x = 200000 := rfl
  rw [hyB, hxB]
  have hdx : (200000 : ℝ) - 100000 = 100000 := by norm_num
  have hdy : (-1 : ℝ) - 0 = -1 := by norm_num
  rw [hdx, hdy]
  -- the argument of the point (100000, -1)
  set z : ℂ := ⟨100000, -1⟩ with hz
  have hre : z.re = 100000 := rfl
  have him : z.im = -1 := rfl
  have habs_lb : (100000 : ℝ) ≤ Complex.abs z := by
    have := Complex.abs_re_le_abs z
    rw [hre] at this
    calc (100000 : ℝ) = |(100000 : ℝ)| := by norm_num
      _ ≤ Complex.abs z := this
  have habs_pos : (0 : ℝ) < Complex.abs z := lt_of_lt_of_le (by norm_num) habs_lb
  have harg : atan2R (-1) 100000 = Real.arcsin (-1 / Complex.abs z) := by
    unfold atan2R
    rw [← hz]
    rw [Complex.arg_of_re_nonneg (by rw [hre]; norm_num)]
  set t : ℝ := 1 / Complex.abs z with ht
  have ht_pos : 0 < t := by positivity
  have ht_small : t ≤ 1 / 100000 := by
    rw [ht]
    apply div_le_div_of_nonneg_left (by norm_num) (by norm_num) habs_lb
  have harcsin_pos : 0 < Real.arcsin t := Real.arcsin_pos.2 ht_pos
  have harcsin_small : Real.arcsin t ≤ 2 * t := by
    have hπ3 := Real.pi_gt_three
    have hmem : 2 * t ∈ Set.Ico (-(Real.pi / 2)) (Real.pi / 2) :=
      Set.mem_Ico.mpr ⟨by nlinarith, by nlinarith⟩
    rw [Real.arcsin_le_iff_le_sin' hmem]
    have hsin := Real.sin_gt_sub_cube (by linarith : (0 : ℝ) < 2 * t) (by nlinarith)
    have ht2 : t * t ≤ 1 / 100000 * (1 / 100000) :=
      mul_le_mul ht_small ht_small ht_pos.le (by norm_num)
    nlinarith [hsin, ht2, ht_pos]
  have hargval : atan2R (-1) 100000 = -Real.arcsin t := by
    rw [harg, ht, neg_div, Real.arcsin_neg, one_div]
  set a : ℝ := atan2R (-1) 100000 with ha
  have ha_neg : a < 0 := by rw [hargval]; linarith
  have ha_lb : -(1 / 40000 : ℝ) ≤ a := by
    rw [hargval]
    have : Real.arcsin t ≤ 1 / 40000 := by
      calc Real.arcsin t ≤ 2 * t := harcsin_small
        _ ≤ 2 * (1 / 100000) := by linarith
        _ ≤ 1 / 40000 := by norm_num
    linarith
  -- degrees: a * 180 / π with π > 3
  set d : ℝ := degreesR a with hd
  have hπ := Real.pi_gt_three
  have hπpos := Real.pi_pos
  have hd_neg : d < 0 := by
    rw [hd]
    unfold degreesR
    apply div_neg_of_neg_of_pos _ hπpos
    nlinarith
  have hd_lb : -(1 / 500 : ℝ) ≤ d := by
    rw [hd]
    unfold degreesR
    rw [le_div_iff₀ hπpos]
    nlinarith
  -- the value fed to %
  have hval_lb : (359.998 : ℝ) ≤ d + 360 := by norm_num; linarith
  have hval_ub : d + 360 < 360 := by linarith
  -- floor of (d+360)/360 is 0
  have hfloor0 : ⌊(d + 360) / 360⌋ = (0 : ℤ) := by
    apply Int.floor_eq_zero_iff.2
    constructor
    · apply div_nonneg (by linarith) (by norm_num)
    · rw [div_lt_one (by norm_num : (0 : ℝ) < 360)]
      linarith
  have hmod : pymodR (d + 360) 360 = d + 360 := by
    unfold pymodR
    rw [hfloor0]
    norm_num
  rw [hmod]
  -- round2 (d + 360) = 360
  unfold round2
  have hfloor36 : ⌊(100 : ℝ) * (d + 360)⌋ = (35999 : ℤ) := by
    apply Int.floor_eq_iff.2
    constructor
    · push_cast
      linarith
    · push_cast
      linarith
  have hrhe : roundHalfEven ((100 : ℝ) * (d + 360)) = 36000 := by
    have h1 : 1 / 2 < (100 : ℝ) * (d + 360) - ⌊(100 : ℝ) * (d + 360)⌋ := by
      rw [hfloor36]
      push_cast
      linarith
    rw [roundHalfEven_eq_floor_add_one _ h1, hfloor36]
    norm_num
  rw [hrhe]
  norm_num

lemma visibleColor_turnOff (st : SegState) : visibleColor (turnOffState st) = (0, 0, 0) := by
  simp [visibleColor, turnOffState]

/-! ### The claims -/

/-- Claim C1: every per-panel update (turn_on or turn_off of a single segment
entity) produces a custom-animation command that lists exactly the N panels of
the layout, prefixed by the count N: the targeted panel with its newly
commanded color (brightness-scaled, or (0,0,0) when turned off), and every
other panel with the brightness-scaled color derived from its stored commanded
state (or the default on/255/white when the store has no entry for it). -/
theorem claim_C1 (store : List (ℕ × SegState)) (segments : List ℕ) (target : ℕ)
    (brightness? : Option ℕ) (rgb? : Option (ℕ × ℕ × ℕ)) (t : ℕ) :
    ((perPanelTurnOn store segments target brightness? rgb? t).2.numPanels =
        segments.length ∧
      (perPanelTurnOn store segments target brightness? rgb? t).2.parts =
        segments.map (fun pid =>
          if pid = target then
            mkPart pid
              (visibleColor (turnOnState (lookupState store target) brightness? rgb?)) t
          else mkPart pid (visibleColor (lookupState store pid)) t)) ∧
    ((perPanelTurnOff store segments target t).2.numPanels = segments.length ∧
      (perPanelTurnOff store segments target t).2.parts =
        segments.map (fun pid =>
          if pid = target then mkPart pid (0, 0, 0) t
          else mkPart pid (visibleColor (lookupState store pid)) t)) := by
  have hOn : lookupState
      (dictInsert (ensureKey store target) target
        (turnOnState (lookupState (ensureKey store target) target) brightness? rgb?)) target =
      turnOnState (lookupState store target) brightness? rgb? := by
    rw [lookupState_dictInsert_self, lookupState_ensureKey_self]
  have hOff : lookupState
      (dictInsert (ensureKey store target) target
        (turnOffState (lookupState (ensureKey store target) target))) target =
      turnOffState (lookupState store target) := by
    rw [lookupState_dictInsert_self, lookupState_ensureKey_self]
  have hKeepOn : ∀ pid, pid ≠ target → lookupState
      (dictInsert (ensureKey store target) target
        (turnOnState (lookupState (ensureKey store target) target) brightness? rgb?)) pid =
      lookupState store pid := by
    intro pid hpid
    rw [lookupState_dictInsert_ne _ _ _ _ hpid, lookupState_ensureKey_ne _ _ _ hpid]
  have hKeepOff : ∀ pid, pid ≠ target → lookupState
      (dictInsert (ensureKey store target) target
        (turnOffState (lookupState (ensureKey store target) target))) pid =
      lookupState store pid := by
    intro pid hpid
    rw [lookupState_dictInsert_ne _ _ _ _ hpid, lookupState_ensureKey_ne _ _ _ hpid]
  refine ⟨⟨rfl, ?_⟩, ⟨rfl, ?_⟩⟩
  · show segments.map _ = segments.map _
    apply List.map_congr_left
    intro pid _
    by_cases hpid : pid = target
    · subst hpid
      rw [if_pos rfl, if_pos rfl, hOn]
    · rw [if_neg hpid, if_neg hpid, hKeepOn pid hpid]
  · show segments.map _ = segments.map _
    apply List.map_congr_left
    intro pid _
    by_cases hpid : pid = target
    · subst hpid
      rw [if_pos rfl, if_pos rfl, hOff, visibleColor_turnOff]
    · rw [if_neg hpid, if_neg hpid, hKeepOff pid hpid]

/-- The claim's per-channel rounding `round(c * b / 255)` (half away from
zero), written as a natural-number function for comparison with the code. -/
def roundSpecChannel (c b : ℕ) : ℕ := (2 * (c * b) + 255) / 510

/-- Claim C2 counterexample: at channel value 1 and brightness 254 the code's
visible color is `(0,0,0)` (float truncation), while the claimed
`round(1*254/255)` is 1: the visible color is not the rounded value. -/
theorem claim_C2_counterexample :
    visibleColor ⟨true, 254, (1, 1, 1)⟩ ≠
      (roundSpecChannel 1 254, roundSpecChannel 1 254, roundSpecChannel 1 254) := by
  have h0 : scaleChannel 1 254 = 0 := by
    have h := scaleChannel_le_exact 1 254 (by norm_num) (by norm_num)
    omega
  have hvis : visibleColor ⟨true, 254, (1, 1, 1)⟩ = (0, 0, 0) := by
    unfold visibleColor
    simp [h0]
  have hround : roundSpecChannel 1 254 = 1 := by decide
  rw [hvis, hround]
  simp

/-- Claim C2 (amended): the visible color is `(0,0,0)` whenever `is_on` is
false, regardless of the stored color; otherwise each channel is
`int(channel * (brightness / 255))` evaluated in binary64 float arithmetic —
truncation, not rounding — whose value always lies within one below the exact
integer quotient `c*b/255`. -/
theorem claim_C2 :
    (∀ st : SegState, st.is_on = false → visibleColor st = (0, 0, 0)) ∧
    (∀ st : SegState, st.is_on = true →
      visibleColor st =
        (scaleChannel st.rgb_color.1 st.brightness,
         scaleChannel st.rgb_color.2.1 st.brightness,
         scaleChannel st.rgb_color.2.2 st.brightness)) ∧
    (∀ c b : ℕ, c ≤ 255 → b ≤ 255 →
      scaleChannel c b ≤ c * b / 255 ∧ c * b / 255 ≤ scaleChannel c b + 1) := by
  refine ⟨?_, ?_, ?_⟩
  · intro st h
    unfold visibleColor
    rw [h]
    simp
  · intro st h
    unfold visibleColor
    rw [h]
    simp
  · intro c b hc hb
    exact ⟨scaleChannel_le_exact c b hc hb, exact_le_scaleChannel_succ c b hc hb⟩

theorem claim_C2_witness :
    (visibleColor ⟨false, 10, (9, 9, 9)⟩ = (0, 0, 0)) ∧
    (51 ≤ 255 ∧ 155 ≤ 255 ∧
      (scaleChannel 51 155 ≤ 51 * 155 / 255 ∧ 51 * 155 / 255 ≤ scaleChannel 51 155 + 1)) :=
  ⟨claim_C2.1 ⟨false, 10, (9, 9, 9)⟩ rfl,
   by decide, by decide, claim_C2.2.2 51 155 (by decide) (by decide)⟩

/-- Claim C3: for every list of segments carrying angle attributes and every
group size `G ≥ 1`, automatic grouping returns `⌈N/G⌉` groups, all except
possibly the last of size exactly G, and the concatenation of the groups
equals the input stably sorted by ascending angle: it is sorted, and the
elements of each angle class appear in their original input order. -/
theorem claim_C3 (segments : List SegInfo) (G : ℕ) (hG : 1 ≤ G) :
    (create_groups_by_position segments G).length = (segments.length + G - 1) / G ∧
    (∀ g ∈ (create_groups_by_position segments G).dropLast, g.length = G) ∧
    (create_groups_by_position segments G).flatten = sortByAngle segments ∧
    List.Sorted (fun a b => angleKey a ≤ angleKey b)
      (create_groups_by_position segments G).flatten ∧
    (∀ a : ℚ,
      ((create_groups_by_position segments G).flatten).filter
          (fun s => decide (angleKey s = a)) =
        segments.filter (fun s => decide (angleKey s = a))) := by
  haveI hTot : IsTotal SegInfo (fun a b => angleKey a ≤ angleKey b) :=
    ⟨fun a b => le_total _ _⟩
  haveI hTrans : IsTrans SegInfo (fun a b => angleKey a ≤ angleKey b) :=
    ⟨fun _ _ _ hab hbc => le_trans hab hbc⟩
  have hlen : (sortByAngle segments).length = segments.length := by
    unfold sortByAngle
    exact List.length_insertionSort _ segments
  have hjoin : (create_groups_by_position segments G).flatten = sortByAngle segments := by
    unfold create_groups_by_position chunksOf
    exact chunksFuel_join G hG _ _ le_rfl
  refine ⟨?_, ?_, hjoin, ?_, ?_⟩
  · unfold create_groups_by_position chunksOf
    rw [chunksFuel_length G hG _ _ le_rfl, hlen]
  · intro g hg
    unfold create_groups_by_position chunksOf at hg
    exact chunksFuel_dropLast G hG _ _ le_rfl g hg
  · rw [hjoin]
    unfold sortByAngle
    exact List.sorted_insertionSort _ segments
  · intro a
    rw [hjoin]
    unfold sortByAngle
    exact filter_insertionSort a segments

theorem claim_C3_witness :
    1 ≤ 2 ∧
    ((create_groups_by_position [⟨1, some 30⟩, ⟨2, some 10⟩, ⟨3, none⟩] 2).length =
        (List.length [(⟨1, some 30⟩ : SegInfo), ⟨2, some 10⟩, ⟨3, none⟩] + 2 - 1) / 2 ∧
      (∀ g ∈ (create_groups_by_position [⟨1, some 30⟩, ⟨2, some 10⟩, ⟨3, none⟩] 2).dropLast,
        g.length = 2) ∧
      (create_groups_by_position [⟨1, some 30⟩, ⟨2, some 10⟩, ⟨3, none⟩] 2).flatten =
        sortByAngle [⟨1, some 30⟩, ⟨2, some 10⟩, ⟨3, none⟩] ∧
      List.Sorted (fun a b => angleKey a ≤ angleKey b)
        (create_groups_by_position [⟨1, some 30⟩, ⟨2, some 10⟩, ⟨3, none⟩] 2).flatten ∧
      (∀ a : ℚ,
        ((create_groups_by_position [⟨1, some 30⟩, ⟨2, some 10⟩, ⟨3, none⟩] 2).flatten).filter
            (fun s => decide (angleKey s = a)) =
          [(⟨1, some 30⟩ : SegInfo), ⟨2, some 10⟩, ⟨3, none⟩].filter
            (fun s => decide (angleKey s = a)))) :=
  ⟨by decide, claim_C3 [⟨1, some 30⟩, ⟨2, some 10⟩, ⟨3, none⟩] 2 (by decide)⟩

/-- Claim C4 counterexample: the manual-group builder raises `IndexError` on
the index `-2` over a one-element list (so it does not "never raise"), and the
index `-1` selects the last element Python-style instead of being dropped (so
the group is not dropped as the claim requires). -/
theorem claim_C4_counterexample :
    manualGroups [(0 : ℕ)] [[-2]] = .error .indexError ∧
    manualGroups [(0 : ℕ)] [[-1]] = .ok [[0]] := by
  constructor
  · decide
  · decide

/-- Claim C4 (amended): manual grouping silently drops each index
`i ≥ len(segments)`, resolves the remaining indices with Python semantics
(an index in `[-len, -1]` selects from the end), drops entirely any group
whose member list becomes empty, and returns the remaining groups in order;
it never raises provided every index is `≥ -len(segments)` (an index below
`-len(segments)` raises `IndexError`). -/
theorem claim_C4 {α : Type} (segments : List α) (manual : List (List ℤ))
    (h : ∀ g ∈ manual, ∀ i ∈ g, -(segments.length : ℤ) ≤ i) :
    manualGroups segments manual = .ok (manualGroupsAmendedSpec segments manual) ∧
    (∀ g ∈ manualGroupsAmendedSpec segments manual, g ≠ []) := by
  refine ⟨manualGroups_ok segments manual h, ?_⟩
  intro g hg
  have := List.of_mem_filter hg
  intro hnil
  subst hnil
  simp at this

theorem claim_C4_witness :
    (∀ g ∈ [[-1], [5], [0, 2]], ∀ i ∈ g,
      -((List.length [(10 : ℕ), 20, 30] : ℕ) : ℤ) ≤ i) ∧
    (manualGroups [(10 : ℕ), 20, 30] [[-1], [5], [0, 2]] =
        .ok (manualGroupsAmendedSpec [(10 : ℕ), 20, 30] [[-1], [5], [0, 2]]) ∧
      (∀ g ∈ manualGroupsAmendedSpec [(10 : ℕ), 20, 30] [[-1], [5], [0, 2]], g ≠ [])) :=
  ⟨by decide, claim_C4 [(10 : ℕ), 20, 30] [[-1], [5], [0, 2]] (by decide)⟩

/-- Claim C5: for every panel-color mapping (ids below 2^16, channels 0–255,
fewer than 2^16 entries) the streaming datagram is a big-endian 2-byte count
followed per panel by 2-byte id, R, G, B, a reserved byte that is always 0,
and a 2-byte transition; decoding the frame recovers exactly the count, ids
and RGB values supplied. -/
theorem claim_C5 (colors : List (ℕ × (ℕ × ℕ × ℕ))) (t : ℕ)
    (hn : colors.length < 2 ^ 16)
    (hid : ∀ pc ∈ colors, pc.1 < 2 ^ 16)
    (hrgb : ∀ pc ∈ colors, pc.2.1 < 256 ∧ pc.2.2.1 < 256 ∧ pc.2.2.2 < 256)
    (ht : t < 2 ^ 16) :
    decodeUdpPacket (encodeUdpPacket colors t) = some (colors.length, colors) ∧
    (∀ i, i < colors.length → (encodeUdpPacket colors t)[2 + 8 * i + 5]? = some 0) :=
  ⟨decodeUdpPacket_encode colors t, fun i hi => encode_reserved_byte t colors i hi⟩

theorem claim_C5_witness :
    ((List.length [((7 : ℕ), ((1 : ℕ), (2 : ℕ), (3 : ℕ)))] < 2 ^ 16) ∧
      (∀ pc ∈ [((7 : ℕ), ((1 : ℕ), (2 : ℕ), (3 : ℕ)))], pc.1 < 2 ^ 16) ∧
      (∀ pc ∈ [((7 : ℕ), ((1 : ℕ), (2 : ℕ), (3 : ℕ)))],
        pc.2.1 < 256 ∧ pc.2.2.1 < 256 ∧ pc.2.2.2 < 256) ∧
      (2 : ℕ) < 2 ^ 16) ∧
    (decodeUdpPacket (encodeUdpPacket [((7 : ℕ), ((1 : ℕ), (2 : ℕ), (3 : ℕ)))] 2) =
        some (List.length [((7 : ℕ), ((1 : ℕ), (2 : ℕ), (3 : ℕ)))],
          [((7 : ℕ), ((1 : ℕ), (2 : ℕ), (3 : ℕ)))]) ∧
      (∀ i, i < List.length [((7 : ℕ), ((1 : ℕ), (2 : ℕ), (3 : ℕ)))] →
        (encodeUdpPacket [((7 : ℕ), ((1 : ℕ), (2 : ℕ), (3 : ℕ)))] 2)[2 + 8 * i + 5]? =
          some 0)) :=
  ⟨⟨by decide, by decide, by decide, by decide⟩,
   claim_C5 [((7 : ℕ), ((1 : ℕ), (2 : ℕ), (3 : ℕ)))] 2
     (by decide) (by decide) (by decide) (by decide)⟩

/-- Claim C6: if the streaming channel was never negotiated the streaming send
delegates to the reliable path with an equivalent command containing every
requested panel; if enabled it transmits exactly one datagram with transition
2 tenths when smooth is requested and 0 otherwise; on a transmission error it
performs exactly one fallback send of the same mapping via the reliable path,
with no further retry. -/
theorem claim_C6 (colors : List (ℕ × (ℕ × ℕ × ℕ))) (smooth en hs udpOk : Bool) :
    ((en = false ∨ hs = false) →
      set_multiple_panels_udp en hs udpOk colors smooth =
        [.httpSend (setMultiplePanelsCmd colors 0)] ∧
      (setMultiplePanelsCmd colors 0).numPanels = colors.length ∧
      (setMultiplePanelsCmd colors 0).parts.map (fun p => p.panelId) =
        colors.map (fun pc => pc.1)) ∧
    (en = true → hs = true → udpOk = true →
      set_multiple_panels_udp en hs udpOk colors smooth =
        [.udpAttempt (encodeUdpPacket colors (if smooth then 2 else 0)) true]) ∧
    (en = true → hs = true → udpOk = false →
      set_multiple_panels_udp en hs udpOk colors smooth =
        [.udpAttempt (encodeUdpPacket colors (if smooth then 2 else 0)) false,
         .httpSend (setMultiplePanelsCmd colors 0)]) := by
  have hparts : (setMultiplePanelsCmd colors 0).parts.map (fun p => p.panelId) =
      colors.map (fun pc => pc.1) := by
    unfold setMultiplePanelsCmd
    rw [List.map_map]
    rfl
  refine ⟨?_, ?_, ?_⟩
  · intro h
    refine ⟨?_, rfl, hparts⟩
    unfold set_multiple_panels_udp
    rcases h with h | h <;> subst h <;> simp
  · intro h1 h2 h3
    subst h1; subst h2; subst h3
    rfl
  · intro h1 h2 h3
    subst h1; subst h2; subst h3
    rfl

theorem claim_C6_witness :
    ((false = false ∨ (true : Bool) = false) ∧
      set_multiple_panels_udp false true true [((7 : ℕ), ((1 : ℕ), 2, 3))] true =
        [.httpSend (setMultiplePanelsCmd [((7 : ℕ), ((1 : ℕ), 2, 3))] 0)]) ∧
    set_multiple_panels_udp true true false [((7 : ℕ), ((1 : ℕ), 2, 3))] true =
      [.udpAttempt (encodeUdpPacket [((7 : ℕ), ((1 : ℕ), 2, 3))] 2) false,
       .httpSend (setMultiplePanelsCmd [((7 : ℕ), ((1 : ℕ), 2, 3))] 0)] :=
  ⟨⟨Or.inl rfl,
    ((claim_C6 [((7 : ℕ), ((1 : ℕ), 2, 3))] true false true true).1 (Or.inl rfl)).1⟩,
   by
    have h := (claim_C6 [((7 : ℕ), ((1 : ℕ), 2, 3))] true true true false).2.2 rfl rfl rfl
    simpa using h⟩

/-- Claim C7: the reliable control-plane send returns normally to its caller
regardless of transport outcome — a timeout surfaces no error and every other
transport error is swallowed — and the command written is the custom-animation
command for the requested mapping. -/
theorem claim_C7 (colors : List (ℕ × (ℕ × ℕ × ℕ))) (t : ℕ) (o : HttpOutcome) :
    (set_multiple_panels colors t o).2 = Except.ok () ∧
    (set_multiple_panels colors t o).1 = setMultiplePanelsCmd colors t := by
  refine ⟨?_, rfl⟩
  cases o <;> rfl

/-- Claim C8: a group update (turn_on or turn_off) sends a panel-color mapping
containing exactly the group's member panels, each with the same single scaled
RGB triple; in particular with the streaming channel disabled the reliable
custom-animation command lists only the group's panels. -/
theorem claim_C8 (st : SegState) (pids : List ℕ) (brightness? : Option ℕ)
    (rgb? : Option (ℕ × ℕ × ℕ)) (en hs udpOk : Bool) (hnd : pids.Nodup) :
    (setGroupColor (turnOnState st brightness? rgb?) pids en hs udpOk =
      set_multiple_panels_udp en hs udpOk
        (pids.map (fun pid => (pid, visibleColor (turnOnState st brightness? rgb?)))) true) ∧
    (setGroupColor (turnOffState st) pids en hs udpOk =
      set_multiple_panels_udp en hs udpOk
        (pids.map (fun pid => (pid, (0, 0, 0)))) true) ∧
    (∀ c : ℕ × ℕ × ℕ,
      (setMultiplePanelsCmd (pids.map (fun pid => (pid, c))) 0).numPanels = pids.length ∧
      (setMultiplePanelsCmd (pids.map (fun pid => (pid, c))) 0).parts =
        pids.map (fun pid => mkPart pid c 0)) ∧
    ((en = false ∨ hs = false) →
      setGroupColor (turnOffState st) pids en hs udpOk =
        [.httpSend (setMultiplePanelsCmd (pids.map (fun pid => (pid, (0, 0, 0)))) 0)]) := by
  have hcmd : ∀ c : ℕ × ℕ × ℕ,
      (setMultiplePanelsCmd (pids.map (fun pid => (pid, c))) 0).numPanels = pids.length ∧
      (setMultiplePanelsCmd (pids.map (fun pid => (pid, c))) 0).parts =
        pids.map (fun pid => mkPart pid c 0) := by
    intro c
    constructor
    · unfold setMultiplePanelsCmd
      simp
    · unfold setMultiplePanelsCmd
      rw [List.map_map]
      rfl
  have hOn : setGroupColor (turnOnState st brightness? rgb?) pids en hs udpOk =
      set_multiple_panels_udp en hs udpOk
        (pids.map (fun pid => (pid, visibleColor (turnOnState st brightness? rgb?)))) true := by
    unfold setGroupColor
    rw [groupPanelColors_eq _ pids hnd]
  have hOff : setGroupColor (turnOffState st) pids en hs udpOk =
      set_multiple_panels_udp en hs udpOk
        (pids.map (fun pid => (pid, (0, 0, 0)))) true := by
    unfold setGroupColor
    rw [groupPanelColors_eq _ pids hnd, visibleColor_turnOff]
  refine ⟨hOn, hOff, hcmd, ?_⟩
  intro h
  rw [hOff]
  unfold set_multiple_panels_udp
  rcases h with h | h <;> subst h <;> simp

theorem claim_C8_witness :
    List.Nodup [(4 : ℕ), 9] ∧
    setGroupColor (turnOffState ⟨true, 255, (255, 255, 255)⟩) [4, 9] false true true =
      [.httpSend (setMultiplePanelsCmd [((4 : ℕ), ((0 : ℕ), 0, 0)), (9, (0, 0, 0))] 0)] :=
  ⟨by decide, by
    have h := (claim_C8 ⟨true, 255, (255, 255, 255)⟩ [4, 9] none none false true true
      (by decide)).2.2.2 (Or.inl rfl)
    simpa using h⟩

/-- Claim C9 counterexample: for the two-segment layout with panels at (0,1)
and (200000,-1), the second panel lies a tiny angle below the positive x-axis
from the centroid (100000,0); its raw angle is just under 360 and rounding to
two decimals yields exactly 360.00, which is not in `[0, 360)`. -/
theorem claim_C9_counterexample :
    filterLineSegments [cexPanelA, cexPanelB] ≠ [] ∧
    ∃ a ∈ anglesOf [cexPanelA, cexPanelB], ¬ (0 ≤ a ∧ a < 360) := by
  constructor
  · rw [cex_filter]
    simp
  · refine ⟨angle_deg [cexPanelA, cexPanelB] cexPanelB, ?_, ?_⟩
    · unfold anglesOf
      rw [cex_filter]
      exact List.mem_map_of_mem _ (by simp)
    · rw [cex_angle]
      intro hcon
      exact absurd hcon.2 (by norm_num)

/-- Claim C9 (amended): for every non-empty filtered panel set, the angle
computed for each panel lies in the closed interval `[0, 360]`: the unrounded
angle is in `[0, 360)`, but rounding to two decimal places can produce exactly
360.00 when the angle is within 0.005 of 360. -/
theorem claim_C9 (panels : List PanelPos) (hne : filterLineSegments panels ≠ []) :
    ∀ a ∈ anglesOf panels, 0 ≤ a ∧ a ≤ 360 := by
  intro a ha
  unfold anglesOf at ha
  obtain ⟨p, _, rfl⟩ := List.mem_map.1 ha
  exact angle_deg_bounds _ p

theorem claim_C9_witness :
    filterLineSegments [(⟨18, 1, 0⟩ : PanelPos)] ≠ [] ∧
    ∀ a ∈ anglesOf [(⟨18, 1, 0⟩ : PanelPos)], 0 ≤ a ∧ a ≤ 360 :=
  ⟨by simp [filterLineSegments], claim_C9 [⟨18, 1, 0⟩] (by simp [filterLineSegments])⟩

/-- Claim C10: brightness scaling at brightness 255 returns every channel
value 0–255 unchanged, and for a fixed channel value the scaled result is
monotone non-increasing as brightness decreases. -/
theorem claim_C10 :
    (∀ c : ℕ, c ≤ 255 → scaleChannel c 255 = c) ∧
    (∀ c b b' : ℕ, c ≤ 255 → b ≤ b' → b' ≤ 255 →
      scaleChannel c b ≤ scaleChannel c b') :=
  ⟨fun c hc => scaleChannel_full c hc,
   fun c b b' hc hb hb' => scaleChannel_mono c b b' hc hb hb'⟩

theorem claim_C10_witness :
    (17 ≤ 255 ∧ scaleChannel 17 255 = 17) ∧
    (200 ≤ 255 ∧ 100 ≤ 255 ∧ scaleChannel 200 100 ≤ scaleChannel 200 255) :=
  ⟨⟨by decide, claim_C10.1 17 (by decide)⟩,
   ⟨by decide, by decide, claim_C10.2 200 100 255 (by decide) (by decide) (by decide)⟩⟩

end NanoleafSegments
